import Mathlib

/-!
# rss_server: channel store, feed entity and id generator

A shallow embedding of `src/channel.go`, `src/feeds.go` and `src/main.go`.

* Go strings and byte slices are lists of byte values (`Bytes`).
* The embedded key-value engine (bolt) is an ordered map from keys to values
  per named bucket; a bucket is a key-sorted association list.  Functions on
  buckets assume, but do not require, that their input is sorted.  `Put` refuses
  an empty key and a key above `MaxKeySize`; the engine's I/O failures and its
  bound on the size of a value are outside the model.
* `crypto/md5` and `encoding/json` are library code: they are fields of `Lib`;
  a digest is an array of sixteen bytes, as `md5.Sum` returns it.
* Go `int` is a 64-bit signed integer: arithmetic on it is `wrapInt64`.
-/

namespace RssServer

/-! ## Bytes -/

/-- A Go string or byte slice, one number per byte. -/
abbrev Bytes := List Nat

/-- The bytes of an ASCII literal. -/
def lit (s : String) : Bytes := s.data.map Char.toNat

/-- Byte-wise lexicographic "less than", the key order of the engine
(`bytes.Compare(a, b) < 0`). -/
def bytesLt : Bytes → Bytes → Bool
  | [], [] => false
  | [], _ :: _ => true
  | _ :: _, [] => false
  | a :: as, b :: bs => if a < b then true else if b < a then false else bytesLt as bs

/-- Go `bytes.HasPrefix(k, p)`. -/
def bytesHasPrefix : Bytes → Bytes → Bool
  | _, [] => true
  | [], _ :: _ => false
  | a :: as, b :: bs => if a = b then bytesHasPrefix as bs else false

/-! ## Machine integers and their text -/

/-- Go `int` arithmetic: the result reduced into the signed 64-bit range. -/
def wrapInt64 (i : Int) : Int := (i + 2 ^ 63) % 2 ^ 64 - 2 ^ 63

/-- The bit pattern of `int64(i)` read as an unsigned 64-bit number. -/
def toUint64 (i : Int) : Nat := (i % 2 ^ 64).toNat

/-- Go `binary.BigEndian.PutUint64`: the eight bytes of `v`, most significant first. -/
def bigEndian64 (v : Nat) : Bytes :=
  [v / 2 ^ 56 % 256, v / 2 ^ 48 % 256, v / 2 ^ 40 % 256, v / 2 ^ 32 % 256,
   v / 2 ^ 24 % 256, v / 2 ^ 16 % 256, v / 2 ^ 8 % 256, v % 256]

/-- Decimal digits of `n` in ASCII, most significant first, pushed in front of `acc`. -/
def formatNatAux : Nat → Nat → Bytes → Bytes
  | 0, _, acc => acc
  | fuel + 1, n, acc =>
    if n < 10 then (48 + n) :: acc
    else formatNatAux fuel (n / 10) ((48 + n % 10) :: acc)

/-- Decimal text of a natural number. -/
def formatNat (n : Nat) : Bytes := formatNatAux (n + 1) n []

/-- Go `strconv.Itoa` and the `%d` verb of `fmt.Sprintf`. -/
def Itoa (i : Int) : Bytes :=
  if i < 0 then 45 :: formatNat i.natAbs else formatNat i.natAbs

/-- Value of a run of ASCII digits, continuing from `acc`; `none` on a non-digit. -/
def parseDigits : Bytes → Nat → Option Nat
  | [], acc => some acc
  | c :: cs, acc => if 48 ≤ c ∧ c ≤ 57 then parseDigits cs (acc * 10 + (c - 48)) else none

/-- Go `strconv.Atoi`: optional sign, at least one digit, value in the `int` range. -/
def Atoi (s : Bytes) : Option Int :=
  match s with
  | [] => none
  | 45 :: ds =>
    if ds = [] then none
    else (parseDigits ds 0).bind fun n => if n ≤ 2 ^ 63 then some (-(n : Int)) else none
  | 43 :: ds =>
    if ds = [] then none
    else (parseDigits ds 0).bind fun n => if n < 2 ^ 63 then some (n : Int) else none
  | ds => (parseDigits ds 0).bind fun n => if n < 2 ^ 63 then some (n : Int) else none

/-- Lower-case hexadecimal digit. -/
def hexDigit (d : Nat) : Nat := if d < 10 then 48 + d else 87 + d

/-- The `%x` verb of `fmt.Sprintf` on a byte array: two hex digits per byte. -/
def hexEncode : Bytes → Bytes
  | [] => []
  | b :: bs => hexDigit (b / 16) :: hexDigit (b % 16) :: hexEncode bs

/-! ## The key-value engine -/

/-- An ordered map with byte-string keys, as a key-sorted association list. -/
abbrev Tree (α : Type) := List (Bytes × α)

/-- Point read. -/
def Tree.get {α : Type} : Tree α → Bytes → Option α
  | [], _ => none
  | (k', v') :: rest, k => if k' = k then some v' else Tree.get rest k

/-- Point write: replaces the value of an existing key, else inserts in key order. -/
def Tree.put {α : Type} : Tree α → Bytes → α → Tree α
  | [], k, v => [(k, v)]
  | (k', v') :: rest, k, v =>
    if bytesLt k' k then (k', v') :: Tree.put rest k v
    else if k' = k then (k, v) :: rest
    else (k, v) :: (k', v') :: rest

/-- Point delete; deleting an absent key changes nothing. -/
def Tree.delete {α : Type} : Tree α → Bytes → Tree α
  | [], _ => []
  | (k', v') :: rest, k => if k' = k then Tree.delete rest k else (k', v') :: Tree.delete rest k

/-- Cursor `Seek(p)` followed by `Next()` while the key has the prefix `p`: the
entries from the first key not below `p` on, up to the first key without the prefix. -/
def Tree.scan {α : Type} (t : Tree α) (p : Bytes) : List (Bytes × α) :=
  (t.dropWhile fun e => bytesLt e.1 p).takeWhile fun e => bytesHasPrefix e.1 p

/-- A bucket: keys to values. -/
abbrev Bucket := Tree Bytes

/-- The store: bucket names to buckets. -/
abbrev DB := Tree Bucket

/-- Engine call `tx.CreateBucketIfNotExists(name)`. -/
def CreateBucketIfNotExists (tx : DB) (name : Bytes) : Except String DB :=
  if name = [] then .error "bucket name required"
  else match tx.get name with
    | some _ => .ok tx
    | none => .ok (tx.put name [])

/-- Engine call `b.Get(key)` on the bucket `name`; `none` is Go's `nil`. -/
def bucketGet (tx : DB) (name key : Bytes) : Option Bytes :=
  (tx.get name).bind fun b => b.get key

/-- The engine's bound on the length of a key, in bytes. -/
def MaxKeySize : Nat := 32768

/-- Engine call `b.Put(key, val)` on the bucket `name`: an empty key and a key
longer than `MaxKeySize` are refused. -/
def bucketPut (tx : DB) (name key val : Bytes) : Except String DB :=
  if key = [] then .error "key required"
  else if key.length > MaxKeySize then .error "key too large"
  else match tx.get name with
    | some b => .ok (tx.put name (b.put key val))
    | none => .error "nil bucket"

/-- Engine call `b.Delete(key)` on the bucket `name`. -/
def bucketDelete (tx : DB) (name key : Bytes) : Except String DB :=
  match tx.get name with
  | some b => .ok (tx.put name (b.delete key))
  | none => .error "nil bucket"

/-- Engine call `db.Update(fn)`: `fn` runs on the transaction's view of the store
and reports the variables it assigned and either the store to commit or an
error, on which every write of the transaction is rolled back. -/
def Update {ρ : Type} (db : DB) (fn : DB → ρ × Except String DB) : DB × ρ × Option String :=
  match fn db with
  | (r, .ok tx) => (tx, r, none)
  | (r, .error e) => (db, r, some e)

/-! ## Library code: digest and JSON -/

/-- A channel (`Channel` in `src/channel.go`). -/
structure Channel where
  Name : Bytes
deriving DecidableEq, Repr

/-- A feed item (`Feed` in `src/feeds.go`); `CreateAt` is an abstract time stamp. -/
structure Feed where
  Title : Bytes
  Url : Bytes
  CreateAt : Int
  Desc : Bytes
  Author : Bytes
  Hash : Bytes
  ChannelName : Bytes
  Id : Int
deriving DecidableEq, Repr

/-- The result of `md5.Sum`, Go's `[16]byte`. -/
abbrev Digest := { d : Bytes // d.length = 16 }

/-- The library functions the program calls: `md5.Sum`, and `json.Marshal` and
`json.Unmarshal` at the two types they are used at.  `marshalFeed` and
`marshalChannel` are the byte slice the call returns (its error is dropped by
every caller); `unmarshalChannel` is the struct left behind by a call whose
error is dropped. -/
structure Lib where
  md5Sum : Bytes → Digest
  marshalFeed : Feed → Bytes
  unmarshalFeed : Bytes → Except String Feed
  marshalChannel : Channel → Bytes
  unmarshalChannel : Bytes → Channel

/-! ## Constants of `src/main.go` -/

def settingsBucketName : Bytes := lit "settings"

def channelsBucketName : Bytes := lit "channels"

def channelBucketNamePrefix : Bytes := lit "channel:"

def settingsIdKey : Bytes := lit "id"

/-! ## `src/feeds.go` -/

/-- Go `Feed.CalcHash`: hex of the digest of `Title|Desc|Url`. -/
def Feed.CalcHash (L : Lib) (f : Feed) : Bytes :=
  let s := f.Title ++ lit "|" ++ f.Desc ++ lit "|" ++ f.Url
  hexEncode (L.md5Sum s).val

/-- Go `Feed.Valid`. -/
def Feed.Valid (f : Feed) : Bool :=
  decide (f.Title.length > 0) && decide (f.Url.length > 0) && decide (f.Desc.length > 0)

/-- Go `GetFeedById`: the result is `none` for Go's `nil`; an engine or decoding
error is logged and the result stays `nil`. -/
def GetFeedById (L : Lib) (db : DB) (channelName : Bytes) (id : Int) : DB × Option Feed :=
  let r := Update db fun tx =>
    let bucketName := channelBucketNamePrefix ++ channelName
    match CreateBucketIfNotExists tx bucketName with
    | .error e => (none, .error e)
    | .ok tx1 =>
      let key := lit "item:id:" ++ Itoa id
      match bucketGet tx1 bucketName key with
      | some bb =>
        match L.unmarshalFeed bb with
        | .error e => (none, .error e)
        | .ok t => (some t, .ok tx1)
      | none => (none, .ok tx1)
  (r.1, r.2.1)

/-! ## `src/channel.go` -/

/-- Go `GetChannelByName`: the store after the call, the channel found (`none` is
`nil`) and the error. -/
def GetChannelByName (L : Lib) (db : DB) (name : Bytes) : DB × Option Channel × Option String :=
  let r := Update db fun tx =>
    match CreateBucketIfNotExists tx channelsBucketName with
    | .error e => (none, .error e)
    | .ok tx1 =>
      let key := lit "channel:" ++ name
      match bucketGet tx1 channelsBucketName key with
      | none => (none, .ok tx1)
      | some bb => (some (L.unmarshalChannel bb), .ok tx1)
  match r with
  | (db1, _, some e) => (db1, none, some e)
  | (db1, ret, none) => (db1, ret, none)

/-- Go `Channel.Save`: the store after the call and the error (`none` is `nil`). -/
def Channel.Save (L : Lib) (db : DB) (c : Channel) : DB × Option String :=
  if c.Name.length = 0 then (db, some "Invalid channel")
  else
    match GetChannelByName L db c.Name with
    | (db1, some _, none) => (db1, some "Channel already exists")
    | (db1, _, some e) => (db1, some e)
    | (db1, none, none) =>
      let r := Update db1 fun tx =>
        ((), do
          let tx1 ← CreateBucketIfNotExists tx channelsBucketName
          let key := lit "channel:" ++ c.Name
          let bb := L.marshalChannel c
          bucketPut tx1 channelsBucketName key bb)
      (r.1, r.2.2)

/-- The key `AddFeed` stores an item under: `item:id:` and the big-endian bytes
of `int64(-id)`. -/
def itemKey (id : Int) : Bytes := lit "item:id:" ++ bigEndian64 (toUint64 (-id))

/-- The key of the hash index entry of a feed. -/
def hashKey (L : Lib) (f : Feed) : Bytes := lit "item:hash:" ++ f.CalcHash L

/-- Go `Channel.AddFeed`. -/
def Channel.AddFeed (L : Lib) (db : DB) (c : Channel) (f : Feed) : DB × Option String :=
  let r := Update db fun tx =>
    ((), do
      let bucketName := channelBucketNamePrefix ++ c.Name
      let tx1 ← CreateBucketIfNotExists tx bucketName
      let key := itemKey f.Id
      let val := L.marshalFeed f
      let tx2 ← bucketPut tx1 bucketName key val
      let idVal := Itoa f.Id
      bucketPut tx2 bucketName (hashKey L f) idVal)
  (r.1, r.2.2)

/-- Go `Channel.HasFeed`. -/
def Channel.HasFeed (L : Lib) (db : DB) (c : Channel) (f : Feed) : DB × Bool × Option String :=
  Update db fun tx =>
    let bucketName := channelBucketNamePrefix ++ c.Name
    match CreateBucketIfNotExists tx bucketName with
    | .error e => (false, .error e)
    | .ok tx1 =>
      match bucketGet tx1 bucketName (hashKey L f) with
      | some _ => (true, .ok tx1)
      | none => (false, .ok tx1)

/-- Go `Channel.RemoveFeed`. -/
def Channel.RemoveFeed (L : Lib) (db : DB) (c : Channel) (f : Feed) : DB × Option String :=
  let r := Update db fun tx =>
    ((), do
      let bucketName := channelBucketNamePrefix ++ c.Name
      let tx1 ← CreateBucketIfNotExists tx bucketName
      let key := lit "item:id:" ++ Itoa f.Id
      let tx2 ← bucketDelete tx1 bucketName key
      bucketDelete tx2 bucketName (hashKey L f))
  (r.1, r.2.2)

/-- The loop of `GetFeeds` over the scanned entries: the feeds appended so far
and the decoding error that stopped it, if any. -/
def decodeFeeds (L : Lib) : List (Bytes × Bytes) → List Feed → List Feed × Option String
  | [], feeds => (feeds, none)
  | (_, v) :: rest, feeds =>
    match L.unmarshalFeed v with
    | .error e => (feeds, some e)
    | .ok feed => decodeFeeds L rest (feeds ++ [feed])

/-- Go `Channel.GetFeeds`; `offset` and `limit` are not used by the source. -/
def Channel.GetFeeds (L : Lib) (db : DB) (c : Channel) (_offset _limit : Int) :
    DB × List Feed × Option String :=
  Update db fun tx =>
    let bucketName := channelBucketNamePrefix ++ c.Name
    match CreateBucketIfNotExists tx bucketName with
    | .error e => ([], .error e)
    | .ok tx1 =>
      match tx1.get bucketName with
      | none => ([], .error "nil bucket")
      | some b =>
        let pfx := lit "item:id:"
        match decodeFeeds L (b.scan pfx) [] with
        | (feeds, some e) => (feeds, .error e)
        | (feeds, none) => (feeds, .ok tx1)

/-! ## `src/main.go`: the id generator -/

/-- The process state: the store, the generator goroutine's variable `globalId`,
and whether the goroutine is blocked in `idChan <- globalId` (`offering`) or
about to run its next `db.Update`. -/
structure Sys where
  db : DB
  globalId : Int
  offering : Bool
deriving DecidableEq, Repr

/-- Go `init` on the store file `db`: the settings bucket is created, `globalId`
is loaded (1000 when the key is absent) and the goroutine is started.  An error
is `log.Fatal`. -/
def init (db : DB) : Except String Sys :=
  let r := Update db fun tx =>
    match CreateBucketIfNotExists tx settingsBucketName with
    | .error e => ((0 : Int), .error e)
    | .ok tx1 =>
      match bucketGet tx1 settingsBucketName settingsIdKey with
      | none => (1000, .ok tx1)
      | some r =>
        match Atoi r with
        | none => (0, .error "invalid syntax")
        | some g => (g, .ok tx1)
  match r with
  | (_, _, some e) => .error e
  | (db1, g, none) => .ok { db := db1, globalId := g, offering := false }

/-- One `db.Update` of the generator goroutine: `globalId += 1` and the new value
is put under `id`; the goroutine then blocks in the send.  `none` is the end of
the process (`tx.Bucket` returned `nil`, or `log.Fatal`). -/
def genStep (s : Sys) : Option Sys :=
  match s.db.get settingsBucketName with
  | none => none
  | some _ =>
    let g := wrapInt64 (s.globalId + 1)
    match bucketPut s.db settingsBucketName settingsIdKey (Itoa g) with
    | .error _ => none
    | .ok db1 => some { db := db1, globalId := g, offering := true }

/-- Go `genGlobalId`: the receive `<-idChan`.  The goroutine runs up to its send
first when it is not there yet; after the hand-over it is about to run its next
`db.Update`. -/
def genGlobalId (s : Sys) : Option (Int × Sys) :=
  if s.offering then some (s.globalId, { s with offering := false })
  else
    match genStep s with
    | none => none
    | some s1 => some (s1.globalId, { s1 with offering := false })

/-- The steps of the generator: the goroutine's `db.Update`, the hand-over of a
value to a caller, and a stop of the process followed by a new start. -/
inductive GenEvent where
  | persist
  | issue
  | restart
deriving DecidableEq, Repr

/-- The process state with the log of the values handed out so far, newest first;
the log is not part of the program. -/
structure GenTrace where
  sys : Sys
  issued : List Int
deriving DecidableEq, Repr

/-- One step of the generator; `none` when the step is not enabled or ends the
process. -/
def genEvent (t : GenTrace) : GenEvent → Option GenTrace
  | .persist =>
    if t.sys.offering then none
    else (genStep t.sys).map fun s => { sys := s, issued := t.issued }
  | .issue =>
    if t.sys.offering then
      some { sys := { t.sys with offering := false }, issued := t.sys.globalId :: t.issued }
    else none
  | .restart =>
    match init t.sys.db with
    | .ok s => some { sys := s, issued := t.issued }
    | .error _ => none

/-- A run of generator steps. -/
def genRun : GenTrace → List GenEvent → Option GenTrace
  | t, [] => some t
  | t, e :: es =>
    match genEvent t e with
    | none => none
    | some t1 => genRun t1 es

/-- The first start of the process on the store `db`. -/
def genBoot (db : DB) : Option GenTrace :=
  match init db with
  | .ok s => some { sys := s, issued := [] }
  | .error _ => none

/-- The value stored under `id` in the settings bucket, when it is there and is a
number. -/
def persistedId (db : DB) : Option Int :=
  (bucketGet db settingsBucketName settingsIdKey).bind Atoi

/-! ## `src/main.go`: posting a feed -/

/-- What a handler writes to the client. -/
inductive Body where
  | text (s : String)
  | feed (f : Feed)
deriving DecidableEq, Repr

/-- How a request ends: with a response, with a run-time panic of the handler
(a `nil` dereference), or with the end of the process. -/
inductive Outcome where
  | response (status : Nat) (body : Body)
  | panic
  | fatal
deriving DecidableEq, Repr

/-- Go `channeldPostHandler` on the route variable `channelName`, the result
`decoded` of `decoder.Decode(&feed)` and the clock reading `now`. -/
def channeldPostHandler (L : Lib) (s : Sys) (channelName : Bytes) (decoded : Except String Feed)
    (now : Int) : Sys × Outcome :=
  match GetChannelByName L s.db channelName with
  | (db1, _, some e) => ({ s with db := db1 }, .response 500 (.text e))
  | (db1, c, none) =>
    match decoded with
    | .error e => ({ s with db := db1 }, .response 500 (.text e))
    | .ok feed =>
      if !feed.Valid then ({ s with db := db1 }, .response 500 (.text "invalid feed"))
      else
        match c with
        | none => ({ s with db := db1 }, .panic)
        | some c =>
          match c.HasFeed L db1 feed with
          | (db2, _, some e) => ({ s with db := db2 }, .response 500 (.text e))
          | (db2, true, none) => ({ s with db := db2 }, .response 500 (.text "feed already exists"))
          | (db2, false, none) =>
            match genGlobalId { s with db := db2 } with
            | none => ({ s with db := db2 }, .fatal)
            | some (id, s3) =>
              let feed1 := { feed with Id := id, CreateAt := now }
              let feed2 := { feed1 with Hash := feed1.CalcHash L, ChannelName := channelName }
              match c.AddFeed L s3.db feed2 with
              | (db4, some e) => ({ s3 with db := db4 }, .response 500 (.text e))
              | (db4, none) => ({ s3 with db := db4 }, .response 200 (.feed feed2))

/-! ## A reference library

A digest without collisions and a JSON codec for the two structs, used to run
the program on concrete inputs. -/

/-- Whether `b` is a continuation byte of UTF-8. -/
def isCont (b : Nat) : Bool := decide (128 ≤ b) && decide (b ≤ 191)

/-- The length of the UTF-8 sequence at the head of `s`; 0 when the head is not
the start of one. -/
def utf8Len (s : Bytes) : Nat :=
  match s with
  | [] => 0
  | b0 :: rest =>
    if b0 < 128 then 1
    else if 194 ≤ b0 ∧ b0 ≤ 223 then
      match rest with
      | b1 :: _ => if isCont b1 then 2 else 0
      | _ => 0
    else if 224 ≤ b0 ∧ b0 ≤ 239 then
      match rest with
      | b1 :: b2 :: _ =>
        if (if b0 = 224 then 160 else 128) ≤ b1 ∧ b1 ≤ (if b0 = 237 then 159 else 191)
            ∧ isCont b2 = true then 3
        else 0
      | _ => 0
    else if 240 ≤ b0 ∧ b0 ≤ 244 then
      match rest with
      | b1 :: b2 :: b3 :: _ =>
        if (if b0 = 240 then 144 else 128) ≤ b1 ∧ b1 ≤ (if b0 = 244 then 143 else 191)
            ∧ isCont b2 = true ∧ isCont b3 = true then 4
        else 0
      | _ => 0
    else 0

/-- The body and closing quote of a JSON string: a backslash before a quote or a
backslash, and the escape of U+FFFD, `\\ufffd`, in place of a byte that is not
UTF-8. -/
def jsonQuoteAux : Nat → Bytes → Bytes
  | 0, _ => [34]
  | fuel + 1, s =>
    match s with
    | [] => [34]
    | c :: cs =>
      if c = 34 ∨ c = 92 then 92 :: c :: jsonQuoteAux fuel cs
      else if utf8Len s = 0 then [92, 117, 102, 102, 102, 100] ++ jsonQuoteAux fuel cs
      else s.take (utf8Len s) ++ jsonQuoteAux fuel (s.drop (utf8Len s))

/-- A JSON string. -/
def jsonQuote (s : Bytes) : Bytes := 34 :: jsonQuoteAux s.length s

/-- The value of a hexadecimal digit. -/
def hexVal (c : Nat) : Nat :=
  if 48 ≤ c ∧ c ≤ 57 then c - 48
  else if 97 ≤ c ∧ c ≤ 102 then c - 87
  else if 65 ≤ c ∧ c ≤ 70 then c - 55
  else 0

/-- The UTF-8 bytes of a code point below 65536. -/
def utf8Encode (cp : Nat) : Bytes :=
  if cp < 128 then [cp]
  else if cp < 2048 then [192 + cp / 64, 128 + cp % 64]
  else [224 + cp / 4096, 128 + cp / 64 % 64, 128 + cp % 64]

/-- The field name `name` quoted and followed by a colon. -/
def jsonField (name : String) : Bytes := jsonQuote (lit name) ++ [58]

/-- Drops the bytes `p` from the front of `s`, when they are there. -/
def expectBytes : Bytes → Bytes → Option Bytes
  | [], s => some s
  | _ :: _, [] => none
  | a :: p, b :: s => if a = b then expectBytes p s else none

/-- Reads a JSON string after its opening quote: the bytes and the rest. -/
def readQuotedAux : Nat → Bytes → Bytes → Option (Bytes × Bytes)
  | 0, _, _ => none
  | fuel + 1, s, acc =>
    match s with
    | [] => none
    | c :: rest =>
      if c = 34 then some (acc.reverse, rest)
      else if c = 92 then
        match rest with
        | [] => none
        | d :: rest1 =>
          if d = 117 then
            match rest1 with
            | h1 :: h2 :: h3 :: h4 :: rest2 =>
              readQuotedAux fuel rest2
                ((utf8Encode (((hexVal h1 * 16 + hexVal h2) * 16 + hexVal h3) * 16
                  + hexVal h4)).reverse ++ acc)
            | _ => none
          else readQuotedAux fuel rest1 (d :: acc)
      else readQuotedAux fuel rest (c :: acc)

def readQuoted (s : Bytes) : Option (Bytes × Bytes) :=
  match s with
  | 34 :: rest => readQuotedAux (rest.length + 1) rest []
  | _ => none

/-- Reads a decimal number: the value and the rest. -/
def readInt (s : Bytes) : Option (Int × Bytes) :=
  let ds := s.takeWhile fun c => c = 45 ∨ (48 ≤ c ∧ c ≤ 57)
  (Atoi ds).map fun i => (i, s.drop ds.length)

def refMarshalFeed (f : Feed) : Bytes :=
  [123] ++ jsonField "title" ++ jsonQuote f.Title
    ++ [44] ++ jsonField "url" ++ jsonQuote f.Url
    ++ [44] ++ jsonField "create_at" ++ Itoa f.CreateAt
    ++ [44] ++ jsonField "Desc" ++ jsonQuote f.Desc
    ++ [44] ++ jsonField "author" ++ jsonQuote f.Author
    ++ [44] ++ jsonField "hash" ++ jsonQuote f.Hash
    ++ [44] ++ jsonField "channel" ++ jsonQuote f.ChannelName
    ++ [44] ++ jsonField "id" ++ Itoa f.Id ++ [125]

/-- Reads `sep`, the field name and a string value. -/
def readStringField (sep : Bytes) (name : String) (s : Bytes) : Option (Bytes × Bytes) :=
  (expectBytes (sep ++ jsonField name) s).bind readQuoted

/-- Reads `sep`, the field name and a number. -/
def readIntField (sep : Bytes) (name : String) (s : Bytes) : Option (Int × Bytes) :=
  (expectBytes (sep ++ jsonField name) s).bind readInt

def refUnmarshalFeedAux (s : Bytes) : Option Feed :=
  (readStringField [123] "title" s).bind fun title =>
  (readStringField [44] "url" title.2).bind fun url =>
  (readIntField [44] "create_at" url.2).bind fun createAt =>
  (readStringField [44] "Desc" createAt.2).bind fun desc =>
  (readStringField [44] "author" desc.2).bind fun author =>
  (readStringField [44] "hash" author.2).bind fun hash =>
  (readStringField [44] "channel" hash.2).bind fun channel =>
  (readIntField [44] "id" channel.2).bind fun id =>
  if id.2 = [125] then
    some { Title := title.1, Url := url.1, CreateAt := createAt.1, Desc := desc.1,
           Author := author.1, Hash := hash.1, ChannelName := channel.1, Id := id.1 }
  else none

def refUnmarshalFeed (s : Bytes) : Except String Feed :=
  match refUnmarshalFeedAux s with
  | some f => .ok f
  | none => .error "invalid character"

def refMarshalChannel (c : Channel) : Bytes :=
  [123] ++ jsonField "name" ++ jsonQuote c.Name ++ [125]

def refUnmarshalChannel (s : Bytes) : Channel :=
  match (expectBytes ([123] ++ jsonField "name") s).bind readQuoted with
  | some (name, [125]) => { Name := name }
  | _ => { Name := [] }

/-- A number for each text, different texts having different numbers. -/
def textCode : Bytes → Nat
  | [] => 0
  | a :: l => 2 ^ a * (2 * textCode l + 1)

/-- A digest without collisions: the number of the text, and fifteen zeros. -/
def refDigest (s : Bytes) : Digest := ⟨textCode s :: List.replicate 15 0, rfl⟩

/-- The reference library: the digest and the codec above. -/
def refLib : Lib where
  md5Sum := refDigest
  marshalFeed := refMarshalFeed
  unmarshalFeed := refUnmarshalFeed
  marshalChannel := refMarshalChannel
  unmarshalChannel := refUnmarshalChannel

/-- The bucket `name` of the store, empty when the store has no such bucket. -/
def bucketOf (db : DB) (name : Bytes) : Bucket := (db.get name).getD []

/-- The store once `CreateBucketIfNotExists name` has run on it. -/
def ensureBucket (db : DB) (name : Bytes) : DB :=
  match db.get name with
  | some _ => db
  | none => db.put name []

/-- The name of the bucket of the channel `name`. -/
def channelBucket (name : Bytes) : Bytes := channelBucketNamePrefix ++ name

/-- The keys of the map are strictly ascending: the engine's invariant. -/
def Tree.Sorted {α : Type} (t : Tree α) : Prop :=
  t.Pairwise fun a b => bytesLt a.1 b.1 = true

/-- The feeds `fs` added to the channel one after another with `AddFeed`. -/
def addFeeds (L : Lib) (c : Channel) (db : DB) (fs : List Feed) : DB :=
  fs.foldl (fun db f => (c.AddFeed L db f).1) db

/-- The record `AddFeed` writes for a feed. -/
def itemEntry (L : Lib) (f : Feed) : Bytes × Bytes := (itemKey f.Id, L.marshalFeed f)

/-- The feed a stored value decodes to; the zero feed when it does not decode. -/
def decodeValue (L : Lib) (e : Bytes × Bytes) : Feed :=
  match L.unmarshalFeed e.2 with
  | .ok f => f
  | .error _ =>
    { Title := [], Url := [], CreateAt := 0, Desc := [], Author := [], Hash := [],
      ChannelName := [], Id := 0 }

/-- What one `AddFeed` does to the channel's bucket. -/
def addToBucket (L : Lib) (b : Bucket) (f : Feed) : Bucket :=
  (b.put (itemKey f.Id) (L.marshalFeed f)).put (hashKey L f) (Itoa f.Id)

/-- What holds of the generator after `n` steps of a run from an empty store: the
settings bucket is there; `globalId` has been incremented at most `n` times;
`globalId` is the stored value, or nothing is stored yet and nothing was handed
out; the log is strictly descending from its newest value on; and no value
handed out is above `globalId`, nor equal to it while `globalId` waits to be
handed out. -/
def GenInv (t : GenTrace) (n : Nat) : Prop :=
  (∃ b, t.sys.db.get settingsBucketName = some b) ∧
  (1000 ≤ t.sys.globalId ∧ t.sys.globalId ≤ 1000 + (n : Int)) ∧
  (persistedId t.sys.db = some t.sys.globalId ∨
    (bucketGet t.sys.db settingsBucketName settingsIdKey = none ∧ t.sys.globalId = 1000 ∧
      t.sys.offering = false ∧ t.issued = [])) ∧
  (t.issued.Pairwise fun newer older => older < newer) ∧
  (∀ v ∈ t.issued, v ≤ t.sys.globalId ∧ (t.sys.offering = true → v < t.sys.globalId))

/-- What holds of the generator while the process that started on an empty store
runs: before the first hand-over `globalId` is 1000, or 1001 and waiting to be
handed out; the oldest value of the log is 1001. -/
def FirstInv (t : GenTrace) : Prop :=
  (t.issued = [] →
    (t.sys.offering = false ∧ t.sys.globalId = 1000) ∨
      (t.sys.offering = true ∧ t.sys.globalId = 1001)) ∧
  (∀ v, t.issued.getLast? = some v → v = 1001)

/-- A run with two restarts: a value is stored and lost before its hand-over, and
three values are handed out. -/
def exRun : List GenEvent :=
  [.persist, .issue, .restart, .persist, .restart, .persist, .issue, .persist, .issue]

/-- The generator when the run `exRun` from an empty store is over. -/
def exRunEnd : GenTrace :=
  { sys := { db := [(settingsBucketName, [(settingsIdKey, lit "1004")])], globalId := 1004,
             offering := false },
    issued := [1004, 1003, 1001] }

/-! ## Concrete inputs -/

/-- The channel `news`. -/
def exNews : Channel := { Name := lit "news" }

/-- A valid feed with id 1001. -/
def exFeed : Feed :=
  { Title := lit "A", Url := lit "http://x", CreateAt := 0, Desc := lit "d",
    Author := lit "ann", Hash := [], ChannelName := lit "news", Id := 1001 }

/-- The feed `exFeed` with another author, time stamp and id. -/
def exFeedOther : Feed :=
  { exFeed with Author := lit "bob", CreateAt := 9, Id := 1002 }

/-- Two feeds whose titles and descriptions differ and whose joined text
`Title|Desc|Url` is the same, `a|b|c|u`. -/
def exPipeLeft : Feed :=
  { Title := lit "a|b", Url := lit "u", CreateAt := 0, Desc := lit "c",
    Author := [], Hash := [], ChannelName := [], Id := 0 }

def exPipeRight : Feed :=
  { Title := lit "a", Url := lit "u", CreateAt := 0, Desc := lit "b|c",
    Author := [], Hash := [], ChannelName := [], Id := 0 }

/-- A name of 32761 bytes: with `channel:` in front, one byte above `MaxKeySize`. -/
def exLongName : Bytes := List.replicate 32761 97

/-- A feed whose title is the byte `0xff`, which is not UTF-8. -/
def exBadTitle : Feed := { exFeed with Title := [255] }

/-- A feed draft without a title. -/
def exInvalid : Feed :=
  { Title := [], Url := lit "http://x", CreateAt := 0, Desc := lit "d",
    Author := [], Hash := [], ChannelName := [], Id := 0 }

/-- The process right after `init` on an empty store file. -/
def exBootSys : Sys :=
  { db := [(settingsBucketName, [])], globalId := 1000, offering := false }

/-- Feeds with the ids 1002, 1001 and 1003, in the order they are added. -/
def exThree : List Feed :=
  [{ exFeed with Id := 1002, Title := lit "B" }, exFeed, { exFeed with Id := 1003, Title := lit "C" }]

/-- A fresh process in which the channel `news` has been created. -/
def exNewsSys : Sys :=
  { db := (Channel.Save refLib exBootSys.db exNews).1, globalId := 1000, offering := false }

/-! ## The engine: point reads after writes -/

theorem bytesLt_irrefl (a : Bytes) : bytesLt a a = false := by
  induction a with
  | nil => rfl
  | cons x xs ih => simp [bytesLt, ih]

theorem Tree.get_put_self {α : Type} (t : Tree α) (k : Bytes) (v : α) :
    (t.put k v).get k = some v := by
  induction t with
  | nil => simp [Tree.put, Tree.get]
  | cons e rest ih =>
    obtain ⟨k0, v0⟩ := e
    unfold Tree.put
    by_cases h1 : bytesLt k0 k = true
    · have hne : k0 ≠ k := by
        intro h
        rw [h, bytesLt_irrefl] at h1
        exact Bool.false_ne_true h1
      simp [h1, Tree.get, hne, ih]
    · by_cases h2 : k0 = k
      · subst h2
        simp [bytesLt_irrefl, Tree.get]
      · simp [h1, h2, Tree.get]

theorem Tree.get_put_ne {α : Type} (t : Tree α) (k k1 : Bytes) (v : α) (h : k ≠ k1) :
    (t.put k v).get k1 = t.get k1 := by
  induction t with
  | nil => simp [Tree.put, Tree.get, h]
  | cons e rest ih =>
    obtain ⟨k0, v0⟩ := e
    unfold Tree.put
    by_cases h1 : bytesLt k0 k = true
    · simp [h1, Tree.get, ih]
    · by_cases h2 : k0 = k
      · subst h2
        simp [h1, Tree.get, h]
      · simp [h1, h2, Tree.get, h]

theorem Tree.put_put_same {α : Type} (t : Tree α) (k : Bytes) (v w : α) :
    (t.put k v).put k w = t.put k w := by
  induction t with
  | nil => simp [Tree.put, bytesLt_irrefl]
  | cons e rest ih =>
    obtain ⟨k0, v0⟩ := e
    by_cases h1 : bytesLt k0 k = true
    · simp [Tree.put, h1, ih]
    · by_cases h2 : k0 = k
      · subst h2
        simp [Tree.put, bytesLt_irrefl]
      · simp [Tree.put, h1, h2, bytesLt_irrefl]

theorem Tree.get_delete_self {α : Type} (t : Tree α) (k : Bytes) :
    (t.delete k).get k = none := by
  induction t with
  | nil => rfl
  | cons e rest ih =>
    obtain ⟨k0, v0⟩ := e
    by_cases h : k0 = k
    · simp [Tree.delete, h, ih]
    · simp [Tree.delete, h, Tree.get, ih]

theorem Tree.get_delete_ne {α : Type} (t : Tree α) (k k1 : Bytes) (h : k ≠ k1) :
    (t.delete k).get k1 = t.get k1 := by
  induction t with
  | nil => rfl
  | cons e rest ih =>
    obtain ⟨k0, v0⟩ := e
    by_cases h0 : k0 = k
    · subst h0
      simp [Tree.delete, Tree.get, h, ih]
    · by_cases h1 : k0 = k1
      · subst h1
        simp [Tree.delete, h0, Tree.get]
      · simp [Tree.delete, h0, Tree.get, h1, ih]

/-! ## The operations in closed form -/

theorem lit_append_ne_nil (x : Nat) (cs : List Nat) (rest : Bytes) : (x :: cs) ++ rest ≠ [] := by
  simp

theorem channelBucket_ne_nil (name : Bytes) : channelBucket name ≠ [] := by
  simp [channelBucket, channelBucketNamePrefix, lit]

theorem itemKey_ne_nil (id : Int) : itemKey id ≠ [] := by
  simp [itemKey, lit]

theorem hashKey_ne_nil (L : Lib) (f : Feed) : hashKey L f ≠ [] := by
  simp [hashKey, lit]

theorem CreateBucketIfNotExists_eq (db : DB) (name : Bytes) (h : name ≠ []) :
    CreateBucketIfNotExists db name = .ok (ensureBucket db name) := by
  unfold CreateBucketIfNotExists ensureBucket
  simp only [h, if_false]
  cases db.get name <;> rfl

theorem ensureBucket_get (db : DB) (name : Bytes) :
    (ensureBucket db name).get name = some (bucketOf db name) := by
  unfold ensureBucket bucketOf
  cases h : db.get name with
  | none => simp [Tree.get_put_self]
  | some b => simp [h]

theorem ensureBucket_get_ne (db : DB) (name n1 : Bytes) (h : name ≠ n1) :
    (ensureBucket db name).get n1 = db.get n1 := by
  unfold ensureBucket
  cases db.get name with
  | none => simp [Tree.get_put_ne _ _ _ _ h]
  | some b => rfl

theorem ensureBucket_put (db : DB) (name : Bytes) (b : Bucket) :
    (ensureBucket db name).put name b = db.put name b := by
  unfold ensureBucket
  cases db.get name with
  | none => simp [Tree.put_put_same]
  | some b => rfl

theorem bucketOf_ensureBucket (db : DB) (name n1 : Bytes) :
    bucketOf (ensureBucket db name) n1 = bucketOf db n1 := by
  by_cases h : name = n1
  · subst h
    simp [bucketOf, ensureBucket_get]
  · simp [bucketOf, ensureBucket_get_ne _ _ _ h]

theorem bucketOf_put_self (db : DB) (name : Bytes) (b : Bucket) :
    bucketOf (db.put name b) name = b := by
  simp [bucketOf, Tree.get_put_self]

theorem bucketOf_put_ne (db : DB) (name n1 : Bytes) (b : Bucket) (h : name ≠ n1) :
    bucketOf (db.put name b) n1 = bucketOf db n1 := by
  simp [bucketOf, Tree.get_put_ne _ _ _ _ h]

theorem bucketGet_eq (db : DB) (name key : Bytes) :
    bucketGet db name key = (bucketOf db name).get key := by
  unfold bucketGet bucketOf
  cases db.get name <;> simp [Tree.get]

theorem hexEncode_length (b : Bytes) : (hexEncode b).length = 2 * b.length := by
  induction b with
  | nil => rfl
  | cons x xs ih =>
    simp only [hexEncode, List.length_cons, ih]
    omega

theorem itemKey_length (id : Int) : (itemKey id).length = 16 := by
  simp [itemKey, lit, bigEndian64]

theorem hashKey_length (L : Lib) (f : Feed) : (hashKey L f).length = 42 := by
  simp [hashKey, Feed.CalcHash, lit, hexEncode_length, (L.md5Sum _).property]

theorem itemKey_fits (id : Int) : ¬ (itemKey id).length > MaxKeySize := by
  rw [itemKey_length]
  decide

theorem hashKey_fits (L : Lib) (f : Feed) : ¬ (hashKey L f).length > MaxKeySize := by
  rw [hashKey_length]
  decide

theorem AddFeed_eq (L : Lib) (db : DB) (c : Channel) (f : Feed) :
    c.AddFeed L db f =
      (db.put (channelBucket c.Name)
        (((bucketOf db (channelBucket c.Name)).put (itemKey f.Id) (L.marshalFeed f)).put
          (hashKey L f) (Itoa f.Id)), none) := by
  unfold Channel.AddFeed Update
  simp only [bind, Except.bind]
  rw [show channelBucketNamePrefix ++ c.Name = channelBucket c.Name from rfl]
  rw [CreateBucketIfNotExists_eq _ _ (channelBucket_ne_nil _)]
  simp [bucketPut, itemKey_ne_nil, hashKey_ne_nil, itemKey_fits, hashKey_fits, ensureBucket_get,
    Tree.get_put_self, ensureBucket_put, Tree.put_put_same]

theorem RemoveFeed_eq (L : Lib) (db : DB) (c : Channel) (f : Feed) :
    c.RemoveFeed L db f =
      (db.put (channelBucket c.Name)
        (((bucketOf db (channelBucket c.Name)).delete (lit "item:id:" ++ Itoa f.Id)).delete
          (hashKey L f)), none) := by
  unfold Channel.RemoveFeed Update
  simp only [bind, Except.bind]
  rw [show channelBucketNamePrefix ++ c.Name = channelBucket c.Name from rfl]
  rw [CreateBucketIfNotExists_eq _ _ (channelBucket_ne_nil _)]
  simp [bucketDelete, ensureBucket_get, Tree.get_put_self, ensureBucket_put, Tree.put_put_same]

theorem HasFeed_eq (L : Lib) (db : DB) (c : Channel) (f : Feed) :
    c.HasFeed L db f =
      (ensureBucket db (channelBucket c.Name),
        ((bucketOf db (channelBucket c.Name)).get (hashKey L f)).isSome, none) := by
  unfold Channel.HasFeed Update
  rw [show channelBucketNamePrefix ++ c.Name = channelBucket c.Name from rfl]
  dsimp only
  rw [CreateBucketIfNotExists_eq _ _ (channelBucket_ne_nil _)]
  simp only [bucketGet_eq, bucketOf_ensureBucket]
  cases (bucketOf db (channelBucket c.Name)).get (hashKey L f) <;> rfl

theorem GetFeeds_eq (L : Lib) (db : DB) (c : Channel) (offset limit : Int) :
    c.GetFeeds L db offset limit =
      match decodeFeeds L ((bucketOf db (channelBucket c.Name)).scan (lit "item:id:")) [] with
      | (feeds, some e) => (db, feeds, some e)
      | (feeds, none) => (ensureBucket db (channelBucket c.Name), feeds, none) := by
  unfold Channel.GetFeeds Update
  rw [show channelBucketNamePrefix ++ c.Name = channelBucket c.Name from rfl]
  dsimp only
  rw [CreateBucketIfNotExists_eq _ _ (channelBucket_ne_nil _)]
  simp only [ensureBucket_get]
  rcases h : decodeFeeds L ((bucketOf db (channelBucket c.Name)).scan (lit "item:id:")) []
    with ⟨feeds, _ | e⟩ <;> rfl

theorem GetFeedById_eq (L : Lib) (db : DB) (channelName : Bytes) (id : Int) :
    GetFeedById L db channelName id =
      match (bucketOf db (channelBucket channelName)).get (lit "item:id:" ++ Itoa id) with
      | none => (ensureBucket db (channelBucket channelName), none)
      | some bb =>
        match L.unmarshalFeed bb with
        | .error _ => (db, none)
        | .ok t => (ensureBucket db (channelBucket channelName), some t) := by
  unfold GetFeedById Update
  rw [show channelBucketNamePrefix ++ channelName = channelBucket channelName from rfl]
  dsimp only
  rw [CreateBucketIfNotExists_eq _ _ (channelBucket_ne_nil _)]
  simp only [bucketGet_eq, bucketOf_ensureBucket]
  cases (bucketOf db (channelBucket channelName)).get (lit "item:id:" ++ Itoa id) with
  | none => rfl
  | some bb => rcases h : L.unmarshalFeed bb with e | t <;> simp [h]

/-! ## Decimal text -/

theorem formatNatAux_append (fuel n : Nat) (acc : Bytes) :
    formatNatAux fuel n acc = formatNatAux fuel n [] ++ acc := by
  induction fuel generalizing n acc with
  | zero => simp [formatNatAux]
  | succ fuel ih =>
    unfold formatNatAux
    by_cases h : n < 10
    · simp [h]
    · simp only [h, if_false]
      rw [ih (n / 10) ((48 + n % 10) :: acc), ih (n / 10) [48 + n % 10]]
      simp

theorem formatNatAux_head (fuel n : Nat) (acc : Bytes) (h : n < fuel) :
    ∃ d rest, formatNatAux fuel n acc = d :: rest ∧ 48 ≤ d ∧ d ≤ 57 := by
  induction fuel generalizing n acc with
  | zero => omega
  | succ fuel ih =>
    unfold formatNatAux
    by_cases h10 : n < 10
    · exact ⟨48 + n, acc, by simp [h10], by omega, by omega⟩
    · simp only [h10, if_false]
      exact ih (n / 10) _ (by omega)

theorem formatNatAux_length (fuel n : Nat) (h : n < fuel) :
    n < 10 ^ (formatNatAux fuel n []).length := by
  induction fuel generalizing n with
  | zero => omega
  | succ fuel ih =>
    unfold formatNatAux
    by_cases h10 : n < 10
    · simp [h10]
    · simp only [h10, if_false]
      rw [formatNatAux_append]
      have := ih (n / 10) (by omega)
      simp only [List.length_append, List.length_singleton, pow_succ]
      omega

theorem parseDigits_formatNatAux (fuel n : Nat) (acc : Bytes) (h : n < fuel) :
    parseDigits (formatNatAux fuel n acc) 0 = parseDigits acc n := by
  induction fuel generalizing n acc with
  | zero => omega
  | succ fuel ih =>
    unfold formatNatAux
    by_cases h10 : n < 10
    · have h1 : 48 + n ≤ 57 := by omega
      simp [h10, parseDigits, h1]
    · simp only [h10, if_false]
      rw [ih (n / 10) _ (by omega)]
      have h1 : 48 + n % 10 ≤ 57 := by omega
      have h2 : n / 10 * 10 + n % 10 = n := by omega
      simp [parseDigits, h1, h2]

theorem formatNat_head (n : Nat) : ∃ d rest, formatNat n = d :: rest ∧ 48 ≤ d ∧ d ≤ 57 :=
  formatNatAux_head (n + 1) n [] (by omega)

theorem formatNat_length (n : Nat) : n < 10 ^ (formatNat n).length :=
  formatNatAux_length (n + 1) n (by omega)

theorem parseDigits_formatNat (n : Nat) : parseDigits (formatNat n) 0 = some n := by
  unfold formatNat
  rw [parseDigits_formatNatAux _ _ _ (by omega)]
  rfl

theorem Itoa_head (i : Int) : ∃ d rest, Itoa i = d :: rest ∧ 45 ≤ d ∧ d ≤ 57 := by
  unfold Itoa
  by_cases h : i < 0
  · exact ⟨45, formatNat i.natAbs, by simp [h], by omega, by omega⟩
  · obtain ⟨d, rest, h1, h2, h3⟩ := formatNat_head i.natAbs
    exact ⟨d, rest, by simp [h, h1], by omega, h3⟩

theorem Itoa_length (i : Int) (n : Nat) (h : (Itoa i).length ≤ n) : i.natAbs < 10 ^ n := by
  have h1 := formatNat_length i.natAbs
  have h2 : (formatNat i.natAbs).length ≤ n := by
    unfold Itoa at h
    by_cases hi : i < 0
    · simp [hi] at h
      omega
    · simpa [hi] using h
  exact lt_of_lt_of_le h1 (Nat.pow_le_pow_right (by omega) h2)

/-- Reading back the decimal text of a 64-bit integer gives the integer. -/
theorem Atoi_Itoa (i : Int) (h1 : -2 ^ 63 ≤ i) (h2 : i < 2 ^ 63) : Atoi (Itoa i) = some i := by
  unfold Itoa
  by_cases hi : i < 0
  · simp only [hi, if_true]
    obtain ⟨d, rest, hd, _, _⟩ := formatNat_head i.natAbs
    have hne : formatNat i.natAbs ≠ [] := by simp [hd]
    have hb : i.natAbs ≤ 2 ^ 63 := by omega
    simp only [Atoi, hne, if_false, parseDigits_formatNat, Option.bind, hb, if_true]
    congr 1
    omega
  · simp only [hi, if_false]
    obtain ⟨d, rest, hd, hd1, hd2⟩ := formatNat_head i.natAbs
    have hp := parseDigits_formatNat i.natAbs
    rw [hd] at hp ⊢
    have hb : i.natAbs < 2 ^ 63 := by omega
    unfold Atoi
    split
    · rename_i heq
      simp at heq
    · rename_i heq
      simp at heq
      omega
    · rename_i heq
      simp at heq
      omega
    · simp only [hp, Option.bind, hb, if_true]
      congr 1
      omega

/-! ## Keys -/

theorem bytesLt_append_left (p a b : Bytes) : bytesLt (p ++ a) (p ++ b) = bytesLt a b := by
  induction p with
  | nil => rfl
  | cons x xs ih => simp [bytesLt, ih]

theorem bytesLt_cons (a b : Nat) (as bs : Bytes) :
    bytesLt (a :: as) (b :: bs) = true ↔ a < b ∨ (a = b ∧ bytesLt as bs = true) := by
  rw [bytesLt]
  by_cases h1 : a < b
  · simp [h1]
  · by_cases h2 : b < a
    · simp [h1, h2]
      omega
    · have : a = b := by omega
      simp [h1, h2, this]

theorem bytesLt_nil_nil : bytesLt [] [] = true ↔ False := by
  simp [bytesLt]

/-- The big-endian bytes of two 64-bit numbers compare as the numbers do. -/
theorem bytesLt_bigEndian64 (x y : Nat) (hx : x < 2 ^ 64) (hy : y < 2 ^ 64) :
    bytesLt (bigEndian64 x) (bigEndian64 y) = true ↔ x < y := by
  have s0 : x < y ↔ x / 2 ^ 56 % 256 < y / 2 ^ 56 % 256 ∨
      (x / 2 ^ 56 % 256 = y / 2 ^ 56 % 256 ∧ x % 2 ^ 56 < y % 2 ^ 56) := by
    constructor <;> intro h <;> omega
  have s1 : x % 2 ^ 56 < y % 2 ^ 56 ↔ x / 2 ^ 48 % 256 < y / 2 ^ 48 % 256 ∨
      (x / 2 ^ 48 % 256 = y / 2 ^ 48 % 256 ∧ x % 2 ^ 48 < y % 2 ^ 48) := by
    constructor <;> intro h <;> omega
  have s2 : x % 2 ^ 48 < y % 2 ^ 48 ↔ x / 2 ^ 40 % 256 < y / 2 ^ 40 % 256 ∨
      (x / 2 ^ 40 % 256 = y / 2 ^ 40 % 256 ∧ x % 2 ^ 40 < y % 2 ^ 40) := by
    constructor <;> intro h <;> omega
  have s3 : x % 2 ^ 40 < y % 2 ^ 40 ↔ x / 2 ^ 32 % 256 < y / 2 ^ 32 % 256 ∨
      (x / 2 ^ 32 % 256 = y / 2 ^ 32 % 256 ∧ x % 2 ^ 32 < y % 2 ^ 32) := by
    constructor <;> intro h <;> omega
  have s4 : x % 2 ^ 32 < y % 2 ^ 32 ↔ x / 2 ^ 24 % 256 < y / 2 ^ 24 % 256 ∨
      (x / 2 ^ 24 % 256 = y / 2 ^ 24 % 256 ∧ x % 2 ^ 24 < y % 2 ^ 24) := by
    constructor <;> intro h <;> omega
  have s5 : x % 2 ^ 24 < y % 2 ^ 24 ↔ x / 2 ^ 16 % 256 < y / 2 ^ 16 % 256 ∨
      (x / 2 ^ 16 % 256 = y / 2 ^ 16 % 256 ∧ x % 2 ^ 16 < y % 2 ^ 16) := by
    constructor <;> intro h <;> omega
  have s6 : x % 2 ^ 16 < y % 2 ^ 16 ↔ x / 2 ^ 8 % 256 < y / 2 ^ 8 % 256 ∨
      (x / 2 ^ 8 % 256 = y / 2 ^ 8 % 256 ∧ x % 2 ^ 8 < y % 2 ^ 8) := by
    constructor <;> intro h <;> omega
  have s7 : x % 2 ^ 8 < y % 2 ^ 8 ↔ x % 256 < y % 256 := by
    constructor <;> intro h <;> omega
  unfold bigEndian64
  simp only [bytesLt_cons, bytesLt_nil_nil, and_false, or_false]
  rw [s0, s1, s2, s3, s4, s5, s6, s7]

theorem bigEndian64_injective (x y : Nat) (hx : x < 2 ^ 64) (hy : y < 2 ^ 64)
    (h : bigEndian64 x = bigEndian64 y) : x = y := by
  simp only [bigEndian64, List.cons.injEq, and_true] at h
  omega

theorem toUint64_lt (i : Int) : toUint64 i < 2 ^ 64 := by
  unfold toUint64
  omega

/-- The key `AddFeed` writes is never the key `item:id:<decimal id>`. -/
theorem itemKey_ne_decimalKey (id : Int) : itemKey id ≠ lit "item:id:" ++ Itoa id := by
  intro h
  unfold itemKey at h
  have h1 : bigEndian64 (toUint64 (-id)) = Itoa id := List.append_cancel_left h
  obtain ⟨d, rest, hd, hd1, hd2⟩ := Itoa_head id
  have hlen : (Itoa id).length ≤ 8 := by
    rw [← h1]
    simp [bigEndian64]
  have hb := Itoa_length id 8 hlen
  rw [hd] at h1
  simp only [bigEndian64, List.cons.injEq] at h1
  have h0 := h1.1
  unfold toUint64 at h0
  omega

theorem hashKey_ne_itemKey (L : Lib) (f : Feed) (id : Int) : hashKey L f ≠ itemKey id := by
  simp [hashKey, itemKey, lit]

theorem hashKey_ne_decimalKey (L : Lib) (f : Feed) (id : Int) :
    hashKey L f ≠ lit "item:id:" ++ Itoa id := by
  simp [hashKey, lit]

/-! ## Feed validity and content hash -/

/-- C6: `Valid` is true exactly when title, url and description are all
non-empty, and two feeds with the same title, url and description have the same
validity whatever their author, time stamp, hash, channel name and id are. -/
theorem Valid_iff_nonempty (f : Feed) :
    (f.Valid = true ↔ f.Title ≠ [] ∧ f.Url ≠ [] ∧ f.Desc ≠ []) ∧
    ∀ g : Feed, g.Title = f.Title → g.Url = f.Url → g.Desc = f.Desc → g.Valid = f.Valid := by
  constructor
  · simp [Feed.Valid, List.length_pos, and_assoc]
  · intro g h1 h2 h3
    simp [Feed.Valid, h1, h2, h3]

theorem hexDigit_injective (a b : Nat) (h : hexDigit a = hexDigit b) : a = b := by
  unfold hexDigit at h
  split_ifs at h <;> omega

theorem hexEncode_injective : Function.Injective hexEncode := by
  intro a
  induction a with
  | nil =>
    intro b h
    cases b with
    | nil => rfl
    | cons y ys => simp [hexEncode] at h
  | cons x xs ih =>
    intro b h
    cases b with
    | nil => simp [hexEncode] at h
    | cons y ys =>
      simp only [hexEncode, List.cons.injEq] at h
      obtain ⟨h1, h2, h3⟩ := h
      have e1 := hexDigit_injective _ _ h1
      have e2 := hexDigit_injective _ _ h2
      have e3 := ih h3
      have : x = y := by omega
      rw [this, e3]

theorem pow_two_mul_odd_inj (a b m n : Nat) (h : 2 ^ a * (2 * m + 1) = 2 ^ b * (2 * n + 1)) :
    a = b ∧ m = n := by
  induction a generalizing b with
  | zero =>
    cases b with
    | zero =>
      simp only [pow_zero, one_mul] at h
      exact ⟨rfl, by omega⟩
    | succ b =>
      have e : 2 ^ (b + 1) * (2 * n + 1) = 2 * (2 ^ b * (2 * n + 1)) := by ring
      rw [pow_zero, one_mul, e] at h
      omega
  | succ a ih =>
    cases b with
    | zero =>
      have e : 2 ^ (a + 1) * (2 * m + 1) = 2 * (2 ^ a * (2 * m + 1)) := by ring
      rw [pow_zero, one_mul, e] at h
      omega
    | succ b =>
      have e1 : 2 ^ (a + 1) * (2 * m + 1) = 2 * (2 ^ a * (2 * m + 1)) := by ring
      have e2 : 2 ^ (b + 1) * (2 * n + 1) = 2 * (2 ^ b * (2 * n + 1)) := by ring
      rw [e1, e2] at h
      obtain ⟨e3, e4⟩ := ih b (by omega)
      exact ⟨by rw [e3], e4⟩

theorem textCode_injective : Function.Injective textCode := by
  intro s
  induction s with
  | nil =>
    intro t h
    cases t with
    | nil => rfl
    | cons b l =>
      have hpos : 0 < 2 ^ b * (2 * textCode l + 1) := by positivity
      simp only [textCode] at h
      omega
  | cons a l ih =>
    intro t h
    cases t with
    | nil =>
      have hpos : 0 < 2 ^ a * (2 * textCode l + 1) := by positivity
      simp only [textCode] at h
      omega
    | cons b l1 =>
      simp only [textCode] at h
      obtain ⟨e1, e2⟩ := pow_two_mul_odd_inj _ _ _ _ h
      rw [e1, ih e2]

theorem refDigest_injective : Function.Injective refLib.md5Sum := by
  intro s t h
  have h1 : (refDigest s).val = (refDigest t).val := congrArg Subtype.val h
  simp only [refDigest, List.cons.injEq, and_true] at h1
  exact textCode_injective h1

/-- Two texts cut at their first separator are equal only part by part. -/
theorem append_sep_inj (sep : Nat) (a a1 b b1 : Bytes) (ha : sep ∉ a) (ha1 : sep ∉ a1)
    (h : a ++ sep :: b = a1 ++ sep :: b1) : a = a1 ∧ b = b1 := by
  induction a generalizing a1 with
  | nil =>
    cases a1 with
    | nil => simpa using h
    | cons y ys =>
      simp only [List.nil_append, List.cons_append, List.cons.injEq] at h
      simp [h.1] at ha1
  | cons x xs ih =>
    cases a1 with
    | nil =>
      simp only [List.nil_append, List.cons_append, List.cons.injEq] at h
      simp [h.1] at ha
    | cons y ys =>
      simp only [List.cons_append, List.cons.injEq] at h
      simp only [List.mem_cons, not_or] at ha ha1
      obtain ⟨e1, e2⟩ := ih ys ha.2 ha1.2 h.2
      exact ⟨by rw [h.1, e1], e2⟩

/-- C5, as the code has it: with a digest free of collisions two feeds have the
same hash exactly when their joined texts `Title|Desc|Url` are equal; feeds with
the same title, description and url have the same hash whatever their other
fields are; and for feeds without a `|` in title and description the hashes are
equal exactly when title, description and url are. -/
theorem CalcHash_eq_iff (L : Lib) (hL : Function.Injective L.md5Sum) (f g : Feed) :
    (f.CalcHash L = g.CalcHash L ↔
      f.Title ++ lit "|" ++ f.Desc ++ lit "|" ++ f.Url =
        g.Title ++ lit "|" ++ g.Desc ++ lit "|" ++ g.Url) ∧
    (f.Title = g.Title → f.Desc = g.Desc → f.Url = g.Url → f.CalcHash L = g.CalcHash L) ∧
    (124 ∉ f.Title → 124 ∉ f.Desc → 124 ∉ g.Title → 124 ∉ g.Desc →
      (f.CalcHash L = g.CalcHash L ↔ f.Title = g.Title ∧ f.Desc = g.Desc ∧ f.Url = g.Url)) := by
  have key : f.CalcHash L = g.CalcHash L ↔
      f.Title ++ lit "|" ++ f.Desc ++ lit "|" ++ f.Url =
        g.Title ++ lit "|" ++ g.Desc ++ lit "|" ++ g.Url := by
    unfold Feed.CalcHash
    constructor
    · intro h
      exact hL (Subtype.ext (hexEncode_injective h))
    · intro h
      simp only [h]
  refine ⟨key, ?_, ?_⟩
  · intro h1 h2 h3
    unfold Feed.CalcHash
    rw [h1, h2, h3]
  · intro h1 h2 h3 h4
    rw [key]
    constructor
    · intro h
      have hl : lit "|" = [124] := rfl
      simp only [hl, List.append_assoc, List.singleton_append] at h
      obtain ⟨e1, e2⟩ := append_sep_inj 124 _ _ _ _ h1 h3 h
      obtain ⟨e3, e4⟩ := append_sep_inj 124 _ _ _ _ h2 h4 e2
      exact ⟨e1, e3, e4⟩
    · rintro ⟨e1, e2, e3⟩
      rw [e1, e2, e3]

/-- C5 at two concrete feeds that differ in author, time stamp and id, under the
reference digest. -/
theorem CalcHash_eq_iff_witness :
    Function.Injective refLib.md5Sum ∧
    exFeed.CalcHash refLib = exFeedOther.CalcHash refLib ∧
    (exFeed.CalcHash refLib = exFeedOther.CalcHash refLib ↔
      exFeed.Title = exFeedOther.Title ∧ exFeed.Desc = exFeedOther.Desc ∧
        exFeed.Url = exFeedOther.Url) :=
  ⟨refDigest_injective,
    (CalcHash_eq_iff refLib refDigest_injective exFeed exFeedOther).2.1 rfl rfl rfl,
    (CalcHash_eq_iff refLib refDigest_injective exFeed exFeedOther).2.2
      (by decide) (by decide) (by decide) (by decide)⟩

/-- C5 as stated fails: under a digest free of collisions, two feeds with
different titles and descriptions have the same hash. -/
theorem CalcHash_same_for_different_titles :
    ¬ ∀ (L : Lib), Function.Injective L.md5Sum → ∀ f g : Feed,
      (f.CalcHash L = g.CalcHash L ↔ f.Title = g.Title ∧ f.Desc = g.Desc ∧ f.Url = g.Url) := by
  intro h
  have h1 := (h refLib refDigest_injective exPipeLeft exPipeRight).1 rfl
  have h2 : exPipeLeft.Title ≠ exPipeRight.Title := by decide
  exact h2 h1.1

/-! ## Removing a feed and looking a feed up by id -/

theorem bytesLt_append_self (p x : Bytes) : bytesLt (p ++ x) p = false := by
  induction p with
  | nil => cases x <;> rfl
  | cons a as ih => simp [bytesLt, ih]

theorem bytesHasPrefix_append (p x : Bytes) : bytesHasPrefix (p ++ x) p = true := by
  induction p with
  | nil => cases x <;> rfl
  | cons a as ih => simp [bytesHasPrefix, ih]

theorem bytesLt_itemKey_hashKey (L : Lib) (f : Feed) (id : Int) :
    bytesLt (itemKey id) (hashKey L f) = false := by
  simp [itemKey, hashKey, lit, bytesLt]

theorem decodeFeeds_single (L : Lib) (k v : Bytes) (f : Feed) (h : L.unmarshalFeed v = .ok f) :
    decodeFeeds L [(k, v)] [] = ([f], none) := by
  simp [decodeFeeds, h]

/-- C1, what the code does: after `AddFeed f` and `RemoveFeed f` the hash index
entry of `f` is gone and `HasFeed f` is false, and the item record that
`AddFeed` wrote is still there; in a bucket that was empty before, `GetFeeds`
still returns `f`. -/
theorem RemoveFeed_keeps_item_record (L : Lib) (db : DB) (c : Channel) (f : Feed) :
    (c.AddFeed L db f).2 = none ∧
    (c.RemoveFeed L (c.AddFeed L db f).1 f).2 = none ∧
    bucketGet (c.RemoveFeed L (c.AddFeed L db f).1 f).1 (channelBucket c.Name) (hashKey L f)
      = none ∧
    (c.HasFeed L (c.RemoveFeed L (c.AddFeed L db f).1 f).1 f).2.1 = false ∧
    bucketGet (c.RemoveFeed L (c.AddFeed L db f).1 f).1 (channelBucket c.Name) (itemKey f.Id)
      = some (L.marshalFeed f) ∧
    (bucketOf db (channelBucket c.Name) = [] → L.unmarshalFeed (L.marshalFeed f) = .ok f →
      (c.GetFeeds L (c.RemoveFeed L (c.AddFeed L db f).1 f).1 0 100).2 = ([f], none)) := by
  have hk : bucketOf (c.RemoveFeed L (c.AddFeed L db f).1 f).1 (channelBucket c.Name) =
      ((((bucketOf db (channelBucket c.Name)).put (itemKey f.Id) (L.marshalFeed f)).put
        (hashKey L f) (Itoa f.Id)).delete (lit "item:id:" ++ Itoa f.Id)).delete (hashKey L f) := by
    simp only [AddFeed_eq, RemoveFeed_eq, bucketOf_put_self]
  refine ⟨by rw [AddFeed_eq], by rw [RemoveFeed_eq], ?_, ?_, ?_, ?_⟩
  · rw [bucketGet_eq, hk, Tree.get_delete_self]
  · rw [HasFeed_eq, hk, Tree.get_delete_self]
    rfl
  · rw [bucketGet_eq, hk, Tree.get_delete_ne _ _ _ (hashKey_ne_itemKey L f f.Id),
      Tree.get_delete_ne _ _ _ (itemKey_ne_decimalKey f.Id).symm,
      Tree.get_put_ne _ _ _ _ (hashKey_ne_itemKey L f f.Id), Tree.get_put_self]
  · intro hempty hrt
    rw [GetFeeds_eq, hk, hempty]
    have h1 : hashKey L f ≠ lit "item:id:" ++ Itoa f.Id := hashKey_ne_decimalKey L f f.Id
    have h2 : itemKey f.Id ≠ lit "item:id:" ++ Itoa f.Id := itemKey_ne_decimalKey f.Id
    have h3 : itemKey f.Id ≠ hashKey L f := (hashKey_ne_itemKey L f f.Id).symm
    have hb : Tree.delete (Tree.delete (Tree.put (Tree.put ([] : Bucket) (itemKey f.Id)
        (L.marshalFeed f)) (hashKey L f) (Itoa f.Id)) (lit "item:id:" ++ Itoa f.Id))
        (hashKey L f) = [(itemKey f.Id, L.marshalFeed f)] := by
      simp [Tree.put, Tree.delete, bytesLt_itemKey_hashKey, h1, h2, h3]
    rw [hb]
    have hs : Tree.scan [(itemKey f.Id, L.marshalFeed f)] (lit "item:id:") =
        [(itemKey f.Id, L.marshalFeed f)] := by
      simp [Tree.scan, itemKey, bytesLt_append_self, bytesHasPrefix_append]
    rw [hs, decodeFeeds_single L _ _ f hrt]

/-- C10, what the code does: `AddFeed` does not change what `GetFeedById` returns
for the id of the added feed; when the bucket has no key `item:id:<decimal id>`
the lookup after `AddFeed` returns `nil`. -/
theorem GetFeedById_misses_added_feed (L : Lib) (db : DB) (c : Channel) (f : Feed) :
    (c.AddFeed L db f).2 = none ∧
    (GetFeedById L (c.AddFeed L db f).1 c.Name f.Id).2 = (GetFeedById L db c.Name f.Id).2 ∧
    ((bucketOf db (channelBucket c.Name)).get (lit "item:id:" ++ Itoa f.Id) = none →
      (GetFeedById L (c.AddFeed L db f).1 c.Name f.Id).2 = none) := by
  have hk : (bucketOf (c.AddFeed L db f).1 (channelBucket c.Name)).get
      (lit "item:id:" ++ Itoa f.Id) =
      (bucketOf db (channelBucket c.Name)).get (lit "item:id:" ++ Itoa f.Id) := by
    rw [AddFeed_eq, bucketOf_put_self, Tree.get_put_ne _ _ _ _ (hashKey_ne_decimalKey L f f.Id),
      Tree.get_put_ne _ _ _ _ (itemKey_ne_decimalKey f.Id)]
  refine ⟨by rw [AddFeed_eq], ?_, ?_⟩
  · rw [GetFeedById_eq, GetFeedById_eq, hk]
    cases (bucketOf db (channelBucket c.Name)).get (lit "item:id:" ++ Itoa f.Id) with
    | none => rfl
    | some bb => rcases h : L.unmarshalFeed bb with e | t <;> simp [h]
  · intro h
    rw [GetFeedById_eq, hk, h]

/-! ## Creating a channel -/

theorem channelsBucketName_ne_nil : channelsBucketName ≠ [] := by
  simp [channelsBucketName, lit]

theorem channelKey_ne_nil (name : Bytes) : lit "channel:" ++ name ≠ [] := by
  simp [lit]

theorem GetChannelByName_eq (L : Lib) (db : DB) (name : Bytes) :
    GetChannelByName L db name =
      (ensureBucket db channelsBucketName,
        ((bucketOf db channelsBucketName).get (lit "channel:" ++ name)).map L.unmarshalChannel,
        none) := by
  unfold GetChannelByName Update
  dsimp only
  rw [CreateBucketIfNotExists_eq _ _ channelsBucketName_ne_nil]
  simp only [bucketGet_eq, bucketOf_ensureBucket]
  cases (bucketOf db channelsBucketName).get (lit "channel:" ++ name) <;> rfl

theorem channelKey_length (name : Bytes) : (lit "channel:" ++ name).length = 8 + name.length := by
  rw [List.length_append]
  rfl

theorem Save_eq_of_absent (L : Lib) (db : DB) (c : Channel) (hname : c.Name ≠ [])
    (hfit : c.Name.length ≤ 32760)
    (h : (bucketOf db channelsBucketName).get (lit "channel:" ++ c.Name) = none) :
    c.Save L db =
      (db.put channelsBucketName
        ((bucketOf db channelsBucketName).put (lit "channel:" ++ c.Name) (L.marshalChannel c)),
        none) := by
  unfold Channel.Save
  have hlen : ¬ c.Name.length = 0 := by
    simpa [List.length_eq_zero] using hname
  have hk : ¬ (lit "channel:" ++ c.Name).length > MaxKeySize := by
    rw [channelKey_length]
    unfold MaxKeySize
    omega
  simp only [hlen, if_false, GetChannelByName_eq, h, Option.map]
  unfold Update
  simp only [bind, Except.bind]
  rw [CreateBucketIfNotExists_eq _ _ channelsBucketName_ne_nil]
  simp only [bucketPut, channelKey_ne_nil, hk, if_false, ensureBucket_get,
    ensureBucket_put, Tree.put_put_same, bucketOf_ensureBucket]

/-- A name whose key is above the engine's bound: the put is refused, and only
the channels bucket created by the lookup stays. -/
theorem Save_eq_of_long_name (L : Lib) (db : DB) (c : Channel) (hlong : 32760 < c.Name.length)
    (h : (bucketOf db channelsBucketName).get (lit "channel:" ++ c.Name) = none) :
    c.Save L db = (ensureBucket db channelsBucketName, some "key too large") := by
  unfold Channel.Save
  have hlen : ¬ c.Name.length = 0 := by omega
  have hk : (lit "channel:" ++ c.Name).length > MaxKeySize := by
    rw [channelKey_length]
    unfold MaxKeySize
    omega
  simp only [hlen, if_false, GetChannelByName_eq, h, Option.map]
  unfold Update
  simp only [bind, Except.bind]
  rw [CreateBucketIfNotExists_eq _ _ channelsBucketName_ne_nil]
  simp only [bucketPut, channelKey_ne_nil, hk, if_false, if_true]

theorem Save_eq_of_present (L : Lib) (db : DB) (c : Channel) (hname : c.Name ≠ []) (v : Bytes)
    (h : (bucketOf db channelsBucketName).get (lit "channel:" ++ c.Name) = some v) :
    c.Save L db = (ensureBucket db channelsBucketName, some "Channel already exists") := by
  unfold Channel.Save
  have hlen : ¬ c.Name.length = 0 := by
    simpa [List.length_eq_zero] using hname
  simp only [hlen, if_false, GetChannelByName_eq, h, Option.map]

theorem Tree.get_eq_none {α : Type} (t : Tree α) (k : Bytes) (h : t.get k = none) :
    ∀ e ∈ t, e.1 ≠ k := by
  induction t with
  | nil => simp
  | cons e rest ih =>
    obtain ⟨k0, v0⟩ := e
    by_cases h0 : k0 = k
    · simp [Tree.get, h0] at h
    · simp only [Tree.get, h0, if_false] at h
      intro e he
      rcases List.mem_cons.1 he with rfl | he
      · exact h0
      · exact ih h e he

theorem Tree.filter_put_of_absent {α : Type} (t : Tree α) (k : Bytes) (v : α)
    (h : t.get k = none) :
    (t.put k v).filter (fun e => decide (e.1 = k)) = [(k, v)] := by
  have hall := Tree.get_eq_none t k h
  have hnone : t.filter (fun e => decide (e.1 = k)) = [] := by
    rw [List.filter_eq_nil_iff]
    intro e he
    simpa using hall e he
  clear h
  induction t with
  | nil => simp [Tree.put]
  | cons e rest ih =>
    obtain ⟨k0, v0⟩ := e
    have h0 : k0 ≠ k := hall (k0, v0) (List.mem_cons_self _ _)
    have hrest : ∀ e ∈ rest, e.1 ≠ k := fun e he => hall e (List.mem_cons_of_mem _ he)
    have hnone1 : rest.filter (fun e => decide (e.1 = k)) = [] := by
      rw [List.filter_eq_nil_iff]
      intro e he
      simpa using hrest e he
    unfold Tree.put
    by_cases h1 : bytesLt k0 k = true
    · simp [h1, h0, List.filter_cons, ih hrest hnone1]
    · simp [h1, h0, List.filter_cons, hnone1]

/-- C3, as the code has it: for a non-empty name of at most 32760 bytes, so
that the key `channel:<name>` is within the engine's bound of 32768 bytes, for
which the lookup finds no channel, the first `Save` succeeds, the second
returns `Channel already exists` and leaves the store as the first left it,
and the channels bucket then holds exactly one record under the key of that
name. -/
theorem Save_twice (L : Lib) (db : DB) (name : Bytes) (hname : name ≠ [])
    (hfit : name.length ≤ 32760)
    (hnew : (GetChannelByName L db name).2.1 = none) :
    (Channel.Save L db { Name := name }).2 = none ∧
    (Channel.Save L (Channel.Save L db { Name := name }).1 { Name := name }).2 =
      some "Channel already exists" ∧
    (Channel.Save L (Channel.Save L db { Name := name }).1 { Name := name }).1 =
      (Channel.Save L db { Name := name }).1 ∧
    (bucketOf (Channel.Save L (Channel.Save L db { Name := name }).1 { Name := name }).1
        channelsBucketName).filter (fun e => decide (e.1 = lit "channel:" ++ name)) =
      [(lit "channel:" ++ name, L.marshalChannel { Name := name })] ∧
    (GetChannelByName L (Channel.Save L db { Name := name }).1 name).2.1 =
      some (L.unmarshalChannel (L.marshalChannel { Name := name })) := by
  have habs : (bucketOf db channelsBucketName).get (lit "channel:" ++ name) = none := by
    rw [GetChannelByName_eq] at hnew
    simpa using hnew
  have h1 := Save_eq_of_absent L db { Name := name } hname hfit habs
  have hget : (bucketOf (Channel.Save L db { Name := name }).1 channelsBucketName).get
      (lit "channel:" ++ name) = some (L.marshalChannel { Name := name }) := by
    rw [h1]
    simp only [bucketOf_put_self, Tree.get_put_self]
  have h2 := Save_eq_of_present L (Channel.Save L db { Name := name }).1 { Name := name }
    hname _ hget
  have hens : ensureBucket (Channel.Save L db { Name := name }).1 channelsBucketName =
      (Channel.Save L db { Name := name }).1 := by
    rw [h1]
    simp [ensureBucket, Tree.get_put_self]
  refine ⟨by rw [h1], by rw [h2], by rw [h2, hens], ?_, ?_⟩
  · rw [h2, hens, h1]
    simp only [bucketOf_put_self]
    exact Tree.filter_put_of_absent _ _ _ habs
  · rw [GetChannelByName_eq, hget]
    rfl

/-- C3 on the empty store with the name `news`. -/
theorem Save_twice_witness :
    lit "news" ≠ [] ∧ (lit "news").length ≤ 32760 ∧
    (GetChannelByName refLib [] (lit "news")).2.1 = none ∧
    (Channel.Save refLib [] exNews).2 = none ∧
    (Channel.Save refLib (Channel.Save refLib [] exNews).1 exNews).2 =
      some "Channel already exists" ∧
    (Channel.Save refLib (Channel.Save refLib [] exNews).1 exNews).1 =
      (Channel.Save refLib [] exNews).1 ∧
    (bucketOf (Channel.Save refLib (Channel.Save refLib [] exNews).1 exNews).1
        channelsBucketName).filter (fun e => decide (e.1 = lit "channel:" ++ lit "news")) =
      [(lit "channel:" ++ lit "news", refLib.marshalChannel exNews)] :=
  ⟨by decide, by decide, rfl,
    (Save_twice refLib [] (lit "news") (by decide) (by decide) rfl).1,
    (Save_twice refLib [] (lit "news") (by decide) (by decide) rfl).2.1,
    (Save_twice refLib [] (lit "news") (by decide) (by decide) rfl).2.2.1,
    (Save_twice refLib [] (lit "news") (by decide) (by decide) rfl).2.2.2.1⟩

theorem exLongName_length : exLongName.length = 32761 := by
  unfold exLongName
  exact List.length_replicate _ _

/-- C3 as stated fails: on the empty store, with a name of 32761 bytes for which
no channel exists, the first `Save` does not succeed: the engine refuses the
key, both calls return `key too large`, and no record is stored. -/
theorem Save_long_name_refused :
    exLongName ≠ [] ∧
    (GetChannelByName refLib [] exLongName).2.1 = none ∧
    (Channel.Save refLib [] { Name := exLongName }).2 = some "key too large" ∧
    (Channel.Save refLib (Channel.Save refLib [] { Name := exLongName }).1
      { Name := exLongName }).2 = some "key too large" ∧
    (GetChannelByName refLib (Channel.Save refLib (Channel.Save refLib []
      { Name := exLongName }).1 { Name := exLongName }).1 exLongName).2.1 = none := by
  have hne : exLongName ≠ [] := by
    intro h
    have := exLongName_length
    rw [h] at this
    simp at this
  have hlong : 32760 < (Channel.mk exLongName).Name.length := by
    show 32760 < exLongName.length
    rw [exLongName_length]
    omega
  have h0 : (bucketOf ([] : DB) channelsBucketName).get (lit "channel:" ++ exLongName) = none :=
    rfl
  have h1 := Save_eq_of_long_name refLib [] { Name := exLongName } hlong h0
  have hb : bucketOf (ensureBucket ([] : DB) channelsBucketName) channelsBucketName = [] := by
    rw [bucketOf_ensureBucket]
    rfl
  have h2 : (bucketOf (ensureBucket ([] : DB) channelsBucketName) channelsBucketName).get
      (lit "channel:" ++ exLongName) = none := by
    rw [hb]
    rfl
  have h3 := Save_eq_of_long_name refLib (ensureBucket ([] : DB) channelsBucketName)
    { Name := exLongName } hlong h2
  refine ⟨hne, ?_, ?_, ?_, ?_⟩
  · rw [GetChannelByName_eq, h0]
    rfl
  · rw [h1]
  · rw [h1, h3]
  · rw [h1, h3, GetChannelByName_eq, bucketOf_ensureBucket, h2]
    rfl

/-! ## Posting a feed -/

/-- The handler up to the validity check: the lookup creates the channels bucket
when the store has none, and an undecodable or invalid draft ends the request. -/
theorem channeldPostHandler_decode_error (L : Lib) (s : Sys) (name : Bytes) (e : String)
    (now : Int) :
    channeldPostHandler L s name (.error e) now =
      ({ s with db := ensureBucket s.db channelsBucketName }, .response 500 (.text e)) := by
  unfold channeldPostHandler
  simp only [GetChannelByName_eq]

theorem channeldPostHandler_invalid (L : Lib) (s : Sys) (name : Bytes) (d : Feed) (now : Int)
    (h : d.Valid = false) :
    channeldPostHandler L s name (.ok d) now =
      ({ s with db := ensureBucket s.db channelsBucketName },
        .response 500 (.text "invalid feed")) := by
  unfold channeldPostHandler
  simp [GetChannelByName_eq, h]

theorem channeldPostHandler_nil_channel (L : Lib) (s : Sys) (name : Bytes) (d : Feed) (now : Int)
    (hmiss : (bucketOf s.db channelsBucketName).get (lit "channel:" ++ name) = none)
    (h : d.Valid = true) :
    channeldPostHandler L s name (.ok d) now =
      ({ s with db := ensureBucket s.db channelsBucketName }, .panic) := by
  unfold channeldPostHandler
  simp [GetChannelByName_eq, h, hmiss]

/-- C4, what the code does: when the lookup finds no channel of that name, a
valid draft makes the handler call `HasFeed` on the `nil` channel and panic, an
invalid draft gets the `invalid feed` response and an undecodable body gets the
decoder's error; the store gains at most the empty channels bucket. -/
theorem post_to_missing_channel (L : Lib) (s : Sys) (name : Bytes) (d : Feed) (now : Int)
    (hmiss : (GetChannelByName L s.db name).2.1 = none) :
    (d.Valid = true →
      channeldPostHandler L s name (.ok d) now =
        ({ s with db := ensureBucket s.db channelsBucketName }, .panic)) ∧
    (d.Valid = false →
      channeldPostHandler L s name (.ok d) now =
        ({ s with db := ensureBucket s.db channelsBucketName },
          .response 500 (.text "invalid feed"))) ∧
    (∀ e, channeldPostHandler L s name (.error e) now =
        ({ s with db := ensureBucket s.db channelsBucketName }, .response 500 (.text e))) := by
  have habs : (bucketOf s.db channelsBucketName).get (lit "channel:" ++ name) = none := by
    rw [GetChannelByName_eq] at hmiss
    simpa using hmiss
  exact ⟨channeldPostHandler_nil_channel L s name d now habs,
    channeldPostHandler_invalid L s name d now,
    fun e => channeldPostHandler_decode_error L s name e now⟩

/-- C4 at the first request of a fresh process: a valid draft for the channel
`news`, which nobody created. -/
theorem post_to_missing_channel_witness :
    (GetChannelByName refLib exBootSys.db (lit "news")).2.1 = none ∧ exFeed.Valid = true ∧
    channeldPostHandler refLib exBootSys (lit "news") (.ok exFeed) 0 =
      ({ db := [(channelsBucketName, []), (settingsBucketName, [])], globalId := 1000,
         offering := false }, .panic) :=
  ⟨rfl, rfl, (post_to_missing_channel refLib exBootSys (lit "news") exFeed 0 rfl).1 rfl⟩

theorem Valid_false_of_empty (d : Feed) (h : d.Title = [] ∨ d.Url = [] ∨ d.Desc = []) :
    d.Valid = false := by
  rcases h with h | h | h <;> simp [Feed.Valid, h]

/-- C9, as the code has it: a draft with an empty title, url or description
gets the `invalid feed` response; the generator is not asked for an id (its
variable and its position are unchanged); no key is written and no bucket other
than the channels bucket is created: the store after the request is the store
before it with the channels bucket created empty when it was absent, and is
the store before it when the channels bucket was there. -/
theorem invalid_post_writes_no_key (L : Lib) (s : Sys) (name : Bytes) (d : Feed) (now : Int)
    (h : d.Title = [] ∨ d.Url = [] ∨ d.Desc = []) :
    (channeldPostHandler L s name (.ok d) now).2 = .response 500 (.text "invalid feed") ∧
    (channeldPostHandler L s name (.ok d) now).1.globalId = s.globalId ∧
    (channeldPostHandler L s name (.ok d) now).1.offering = s.offering ∧
    (channeldPostHandler L s name (.ok d) now).1.db = ensureBucket s.db channelsBucketName ∧
    (∀ n, bucketOf (channeldPostHandler L s name (.ok d) now).1.db n = bucketOf s.db n) ∧
    (∀ n, n ≠ channelsBucketName →
      (channeldPostHandler L s name (.ok d) now).1.db.get n = s.db.get n) ∧
    (s.db.get channelsBucketName ≠ none → (channeldPostHandler L s name (.ok d) now).1 = s) := by
  rw [channeldPostHandler_invalid L s name d now (Valid_false_of_empty d h)]
  refine ⟨rfl, rfl, rfl, rfl, ?_, ?_, ?_⟩
  · intro n
    exact bucketOf_ensureBucket _ _ _
  · intro n hn
    exact ensureBucket_get_ne _ _ _ (Ne.symm hn)
  · intro hex
    cases hb : s.db.get channelsBucketName with
    | none => exact absurd hb hex
    | some b => simp [ensureBucket, hb]

/-- C9 on a store that has the channels bucket: the store after the request is
the store before it. -/
theorem invalid_post_writes_no_key_witness :
    (exInvalid.Title = [] ∨ exInvalid.Url = [] ∨ exInvalid.Desc = []) ∧
    channeldPostHandler refLib
        { db := [(channelsBucketName, []), (settingsBucketName, [])], globalId := 1000,
          offering := false } (lit "news") (.ok exInvalid) 0 =
      ({ db := [(channelsBucketName, []), (settingsBucketName, [])], globalId := 1000,
         offering := false }, .response 500 (.text "invalid feed")) :=
  ⟨Or.inl rfl,
    Prod.ext
      ((invalid_post_writes_no_key refLib
        { db := [(channelsBucketName, []), (settingsBucketName, [])], globalId := 1000,
          offering := false } (lit "news") exInvalid 0 (Or.inl rfl)).2.2.2.2.2.2 (by decide))
      (invalid_post_writes_no_key refLib
        { db := [(channelsBucketName, []), (settingsBucketName, [])], globalId := 1000,
          offering := false } (lit "news") exInvalid 0 (Or.inl rfl)).1⟩

/-- C9 as stated fails: at the first request of a fresh process the handler
answers `invalid feed` and the store is no longer the store before the request,
it has gained the channels bucket. -/
theorem invalid_post_creates_channels_bucket :
    (exInvalid.Title = [] ∨ exInvalid.Url = [] ∨ exInvalid.Desc = []) ∧
    (channeldPostHandler refLib exBootSys (lit "news") (.ok exInvalid) 0).2 =
      .response 500 (.text "invalid feed") ∧
    (channeldPostHandler refLib exBootSys (lit "news") (.ok exInvalid) 0).1.db ≠ exBootSys.db ∧
    exBootSys.db.get channelsBucketName = none ∧
    (channeldPostHandler refLib exBootSys (lit "news") (.ok exInvalid) 0).1.db.get
      channelsBucketName = some [] := by
  refine ⟨Or.inl rfl, rfl, by decide, rfl, rfl⟩

/-! ## Posting the same content twice -/

theorem settings_ne_channels : settingsBucketName ≠ channelsBucketName := by
  decide

theorem settings_ne_channelBucket (name : Bytes) : settingsBucketName ≠ channelBucket name := by
  simp [settingsBucketName, channelBucket, channelBucketNamePrefix, lit]

theorem channels_ne_channelBucket (name : Bytes) : channelsBucketName ≠ channelBucket name := by
  simp [channelsBucketName, channelBucket, channelBucketNamePrefix, lit]

theorem ensureBucket_of_get (db : DB) (name : Bytes) (h : db.get name ≠ none) :
    ensureBucket db name = db := by
  unfold ensureBucket
  cases hb : db.get name with
  | none => exact absurd hb h
  | some b => rfl

theorem ensureBucket_get_ne_none (db : DB) (name n1 : Bytes) (h : n1 = name ∨ db.get n1 ≠ none) :
    (ensureBucket db name).get n1 ≠ none := by
  by_cases hn : name = n1
  · subst hn
    simp [ensureBucket_get]
  · rw [ensureBucket_get_ne _ _ _ hn]
    rcases h with h | h
    · exact absurd h.symm hn
    · exact h

theorem hashKey_congr (L : Lib) (f g : Feed) (ht : g.Title = f.Title) (hd : g.Desc = f.Desc)
    (hu : g.Url = f.Url) : hashKey L g = hashKey L f := by
  simp [hashKey, Feed.CalcHash, ht, hd, hu]

theorem Valid_congr (f g : Feed) (ht : g.Title = f.Title) (hd : g.Desc = f.Desc)
    (hu : g.Url = f.Url) : g.Valid = f.Valid := by
  simp [Feed.Valid, ht, hd, hu]

/-- The receive succeeds when the settings bucket is there, and touches no other bucket. -/
theorem genGlobalId_spec (s : Sys) (h : s.db.get settingsBucketName ≠ none) :
    ∃ id s3, genGlobalId s = some (id, s3) ∧
      ∀ n, n ≠ settingsBucketName → s3.db.get n = s.db.get n := by
  unfold genGlobalId
  by_cases ho : s.offering = true
  · exact ⟨s.globalId, { s with offering := false }, by simp [ho], fun _ _ => rfl⟩
  · cases hb : s.db.get settingsBucketName with
    | none => exact absurd hb h
    | some b =>
      refine ⟨wrapInt64 (s.globalId + 1),
        { db := s.db.put settingsBucketName (b.put settingsIdKey (Itoa (wrapInt64 (s.globalId + 1)))),
          globalId := wrapInt64 (s.globalId + 1), offering := false }, ?_, ?_⟩
      · have hk : settingsIdKey ≠ [] := by decide
        have hk1 : ¬ settingsIdKey.length > MaxKeySize := by decide
        simp [ho, genStep, hb, bucketPut, hk, hk1]
      · intro n hn
        exact Tree.get_put_ne _ _ _ _ (Ne.symm hn)

/-- A valid draft whose hash is in the index of an existing channel is refused
and nothing changes. -/
theorem channeldPostHandler_duplicate (L : Lib) (t : Sys) (name : Bytes) (c : Channel) (g : Feed)
    (now : Int)
    (hch : ((bucketOf t.db channelsBucketName).get (lit "channel:" ++ name)).map
      L.unmarshalChannel = some c)
    (h1 : t.db.get channelsBucketName ≠ none)
    (h2 : t.db.get (channelBucket c.Name) ≠ none)
    (h3 : (bucketOf t.db (channelBucket c.Name)).get (hashKey L g) ≠ none)
    (hv : g.Valid = true) :
    channeldPostHandler L t name (.ok g) now =
      (t, .response 500 (.text "feed already exists")) := by
  unfold channeldPostHandler
  simp only [GetChannelByName_eq, hch, hv, HasFeed_eq, ensureBucket_of_get _ _ h1,
    ensureBucket_of_get _ _ h2]
  cases hg : (bucketOf t.db (channelBucket c.Name)).get (hashKey L g) with
  | none => exact absurd hg h3
  | some v => rfl

/-- The first post of a valid draft to an existing channel, when the generator can
run: afterwards the channel record is as before, the channels bucket and the
channel's bucket exist, and the hash of the draft is in the index. -/
theorem channeldPostHandler_first (L : Lib) (s : Sys) (name : Bytes) (c : Channel) (d : Feed)
    (now : Int)
    (hch : ((bucketOf s.db channelsBucketName).get (lit "channel:" ++ name)).map
      L.unmarshalChannel = some c)
    (hset : s.db.get settingsBucketName ≠ none)
    (hv : d.Valid = true) :
    ((bucketOf (channeldPostHandler L s name (.ok d) now).1.db channelsBucketName).get
      (lit "channel:" ++ name)).map L.unmarshalChannel = some c ∧
    (channeldPostHandler L s name (.ok d) now).1.db.get channelsBucketName ≠ none ∧
    (channeldPostHandler L s name (.ok d) now).1.db.get (channelBucket c.Name) ≠ none ∧
    (bucketOf (channeldPostHandler L s name (.ok d) now).1.db (channelBucket c.Name)).get
      (hashKey L d) ≠ none ∧
    ((bucketOf s.db (channelBucket c.Name)).get (hashKey L d) = none →
      ∃ id, (channeldPostHandler L s name (.ok d) now).2 =
          .response 200 (.feed { d with Id := id, CreateAt := now, Hash := d.CalcHash L, ChannelName := name }) ∧
        bucketOf (channeldPostHandler L s name (.ok d) now).1.db (channelBucket c.Name) =
          ((bucketOf s.db (channelBucket c.Name)).put (itemKey id)
            (L.marshalFeed { d with Id := id, CreateAt := now, Hash := d.CalcHash L, ChannelName := name })).put (hashKey L d) (Itoa id)) := by
  have e2 : (ensureBucket (ensureBucket s.db channelsBucketName) (channelBucket c.Name)).get
      settingsBucketName ≠ none := by
    rw [ensureBucket_get_ne _ _ _ (settings_ne_channelBucket _).symm,
      ensureBucket_get_ne _ _ _ settings_ne_channels.symm]
    exact hset
  unfold channeldPostHandler
  simp only [GetChannelByName_eq, hch, hv, HasFeed_eq, bucketOf_ensureBucket]
  cases hg : (bucketOf s.db (channelBucket c.Name)).get (hashKey L d) with
  | some v =>
    simp only [Option.isSome, Bool.not_true, Bool.false_eq_true, if_false, bucketOf_ensureBucket,
      hch, hg]
    refine ⟨trivial, ?_, ?_, by simp, by simp⟩
    · exact ensureBucket_get_ne_none _ _ _ (Or.inr (ensureBucket_get_ne_none _ _ _ (Or.inl rfl)))
    · exact ensureBucket_get_ne_none _ _ _ (Or.inl rfl)
  | none =>
    obtain ⟨id, s3, hgen, hother⟩ := genGlobalId_spec
      { s with db := ensureBucket (ensureBucket s.db channelsBucketName) (channelBucket c.Name) } e2
    simp only [Option.isSome, Bool.not_true, Bool.false_eq_true, if_false, hgen, AddFeed_eq]
    have hc3 : s3.db.get channelsBucketName =
        (ensureBucket (ensureBucket s.db channelsBucketName) (channelBucket c.Name)).get
          channelsBucketName := hother _ settings_ne_channels.symm
    have hb3 : s3.db.get (channelBucket c.Name) =
        (ensureBucket (ensureBucket s.db channelsBucketName) (channelBucket c.Name)).get
          (channelBucket c.Name) := hother _ (settings_ne_channelBucket _).symm
    have hbo3 : bucketOf s3.db (channelBucket c.Name) = bucketOf s.db (channelBucket c.Name) := by
      unfold bucketOf
      rw [hb3, ensureBucket_get, bucketOf_ensureBucket]
      rfl
    have hco3 : bucketOf s3.db channelsBucketName = bucketOf s.db channelsBucketName := by
      have : bucketOf s3.db channelsBucketName = bucketOf
          (ensureBucket (ensureBucket s.db channelsBucketName) (channelBucket c.Name))
          channelsBucketName := by
        unfold bucketOf
        rw [hc3]
      rw [this, bucketOf_ensureBucket, bucketOf_ensureBucket]
    refine ⟨?_, ?_, ?_, ?_, ?_⟩
    · simp only [bucketOf_put_ne _ _ _ _ (channels_ne_channelBucket _).symm, hco3, hch]
    · simp only [Tree.get_put_ne _ _ _ _ (channels_ne_channelBucket _).symm, hc3]
      exact ensureBucket_get_ne_none _ _ _ (Or.inr (ensureBucket_get_ne_none _ _ _ (Or.inl rfl)))
    · simp [Tree.get_put_self]
    · have hk : hashKey L { d with Id := id, CreateAt := now, Hash := d.CalcHash L, ChannelName := name } = hashKey L d := hashKey_congr L _ _ rfl rfl rfl
      simp only [bucketOf_put_self]
      rw [show Feed.CalcHash L { d with Id := id, CreateAt := now } = d.CalcHash L from rfl, hk,
        Tree.get_put_self]
      simp
    · intro _
      refine ⟨id, rfl, ?_⟩
      simp only [bucketOf_put_self, hbo3]
      rfl

theorem HasFeed_after_AddFeed (L : Lib) (db : DB) (c : Channel) (f g : Feed)
    (ht : g.Title = f.Title) (hd : g.Desc = f.Desc) (hu : g.Url = f.Url) :
    (c.HasFeed L (c.AddFeed L db f).1 g).2.1 = true := by
  rw [HasFeed_eq, AddFeed_eq, bucketOf_put_self, hashKey_congr L f g ht hd hu, Tree.get_put_self]
  rfl

theorem scan_item_after_hash (L : Lib) (d : Feed) (id : Int) (v w : Bytes) :
    Tree.scan (Tree.put (Tree.put ([] : Bucket) (itemKey id) v) (hashKey L d) w) (lit "item:id:") =
      [(itemKey id, v)] := by
  have h3 : itemKey id ≠ hashKey L d := (hashKey_ne_itemKey L d id).symm
  have hb : Tree.put (Tree.put ([] : Bucket) (itemKey id) v) (hashKey L d) w =
      [(hashKey L d, w), (itemKey id, v)] := by
    simp [Tree.put, bytesLt_itemKey_hashKey, h3]
  rw [hb]
  have hlt : bytesLt (hashKey L d) (lit "item:id:") = true := by
    simp [hashKey, lit, bytesLt]
  have hge : bytesLt (itemKey id) (lit "item:id:") = false := bytesLt_append_self _ _
  have hp : bytesHasPrefix (itemKey id) (lit "item:id:") = true := bytesHasPrefix_append _ _
  simp [Tree.scan, List.dropWhile, List.takeWhile, hlt, hge, hp]

/-- C7: in an existing channel, with the generator able to run, a valid draft is
posted and then a draft with the same title, description and url: the second
post is refused with `feed already exists` and leaves the store and the
generator as the first post left them, so `GetFeeds` is unchanged; `HasFeed g`
is true after `AddFeed f` whenever `g` has the title, description and url of
`f`; and when the channel's bucket was empty before the first post, the first
post succeeds and `GetFeeds` after the second post returns exactly the one feed
the first post stored. -/
theorem duplicate_post_rejected (L : Lib) (s : Sys) (name : Bytes) (d g : Feed) (now1 now2 : Int)
    (hch : (GetChannelByName L s.db name).2.1 = some { Name := name })
    (hset : s.db.get settingsBucketName ≠ none)
    (hv : d.Valid = true)
    (ht : g.Title = d.Title) (hd : g.Desc = d.Desc) (hu : g.Url = d.Url) :
    (channeldPostHandler L (channeldPostHandler L s name (.ok d) now1).1 name (.ok g) now2).2 =
      .response 500 (.text "feed already exists") ∧
    (channeldPostHandler L (channeldPostHandler L s name (.ok d) now1).1 name (.ok g) now2).1 =
      (channeldPostHandler L s name (.ok d) now1).1 ∧
    Channel.GetFeeds L
        (channeldPostHandler L (channeldPostHandler L s name (.ok d) now1).1 name (.ok g) now2).1.db
        { Name := name } 0 100 =
      Channel.GetFeeds L (channeldPostHandler L s name (.ok d) now1).1.db { Name := name } 0 100 ∧
    (∀ (db : DB) (f : Feed), g.Title = f.Title → g.Desc = f.Desc → g.Url = f.Url →
      (Channel.HasFeed L (Channel.AddFeed L db { Name := name } f).1 { Name := name } g).2.1
        = true) ∧
    (bucketOf s.db (channelBucket name) = [] →
      ∃ id, (channeldPostHandler L s name (.ok d) now1).2 =
          .response 200 (.feed { d with Id := id, CreateAt := now1, Hash := d.CalcHash L, ChannelName := name }) ∧
        (L.unmarshalFeed (L.marshalFeed { d with Id := id, CreateAt := now1, Hash := d.CalcHash L, ChannelName := name }) =
            .ok { d with Id := id, CreateAt := now1, Hash := d.CalcHash L, ChannelName := name } →
          (Channel.GetFeeds L
            (channeldPostHandler L (channeldPostHandler L s name (.ok d) now1).1 name (.ok g)
              now2).1.db { Name := name } 0 100).2 =
            ([{ d with Id := id, CreateAt := now1, Hash := d.CalcHash L, ChannelName := name }], none))) := by
  have hch1 : ((bucketOf s.db channelsBucketName).get (lit "channel:" ++ name)).map
      L.unmarshalChannel = some { Name := name } := by
    rw [GetChannelByName_eq] at hch
    exact hch
  obtain ⟨f1, f2, f3, f4, f5⟩ :=
    channeldPostHandler_first L s name { Name := name } d now1 hch1 hset hv
  have hvg : g.Valid = true := by
    rw [Valid_congr d g ht hd hu, hv]
  have f4g : (bucketOf (channeldPostHandler L s name (.ok d) now1).1.db
      (channelBucket name)).get (hashKey L g) ≠ none := by
    rw [hashKey_congr L d g ht hd hu]
    exact f4
  have h2 := channeldPostHandler_duplicate L (channeldPostHandler L s name (.ok d) now1).1 name
    { Name := name } g now2 f1 f2 f3 f4g hvg
  refine ⟨by rw [h2], by rw [h2], by rw [h2], ?_, ?_⟩
  · intro db f e1 e2 e3
    exact HasFeed_after_AddFeed L db _ f g e1 e2 e3
  · intro hempty
    have hnone : (bucketOf s.db (channelBucket name)).get (hashKey L d) = none := by
      rw [hempty]
      rfl
    obtain ⟨id, hr, hb⟩ := f5 hnone
    refine ⟨id, hr, ?_⟩
    intro hrt
    rw [h2, GetFeeds_eq]
    dsimp only at hb ⊢
    rw [hb, hempty, scan_item_after_hash, decodeFeeds_single L _ _ _ hrt]

/-- C7 in the channel `news` of a fresh process: `exFeed` is posted and then the
same content with another author. -/
theorem duplicate_post_rejected_witness :
    (GetChannelByName refLib exNewsSys.db (lit "news")).2.1 = some { Name := lit "news" } ∧
    exNewsSys.db.get settingsBucketName ≠ none ∧ exFeed.Valid = true ∧
    exFeedOther.Title = exFeed.Title ∧ exFeedOther.Desc = exFeed.Desc ∧
    exFeedOther.Url = exFeed.Url ∧
    (channeldPostHandler refLib (channeldPostHandler refLib exNewsSys (lit "news") (.ok exFeed) 1).1
      (lit "news") (.ok exFeedOther) 2).2 = .response 500 (.text "feed already exists") ∧
    (channeldPostHandler refLib (channeldPostHandler refLib exNewsSys (lit "news") (.ok exFeed) 1).1
      (lit "news") (.ok exFeedOther) 2).1 =
      (channeldPostHandler refLib exNewsSys (lit "news") (.ok exFeed) 1).1 :=
  ⟨rfl, by decide, rfl, rfl, rfl, rfl,
    (duplicate_post_rejected refLib exNewsSys (lit "news") exFeed exFeedOther 1 2 rfl (by decide)
      rfl rfl rfl rfl).1,
    (duplicate_post_rejected refLib exNewsSys (lit "news") exFeed exFeedOther 1 2 rfl (by decide)
      rfl rfl rfl rfl).2.1⟩

/-! ## The key order and the cursor scan -/

theorem bytesLt_trans (a b c : Bytes) (h1 : bytesLt a b = true) (h2 : bytesLt b c = true) :
    bytesLt a c = true := by
  induction a generalizing b c with
  | nil =>
    cases b with
    | nil => simp [bytesLt] at h1
    | cons y ys =>
      cases c with
      | nil => simp [bytesLt] at h2
      | cons z zs => rfl
  | cons x xs ih =>
    cases b with
    | nil => simp [bytesLt] at h1
    | cons y ys =>
      cases c with
      | nil => simp [bytesLt] at h2
      | cons z zs =>
        rw [bytesLt_cons] at h1 h2 ⊢
        rcases h1 with h1 | ⟨e1, h1⟩
        · rcases h2 with h2 | ⟨e2, h2⟩
          · exact Or.inl (by omega)
          · exact Or.inl (by omega)
        · rcases h2 with h2 | ⟨e2, h2⟩
          · exact Or.inl (by omega)
          · exact Or.inr ⟨by omega, ih ys zs h1 h2⟩

theorem bytesLt_total (a b : Bytes) (h1 : bytesLt a b = false) (h2 : a ≠ b) :
    bytesLt b a = true := by
  induction a generalizing b with
  | nil =>
    cases b with
    | nil => exact absurd rfl h2
    | cons y ys => simp [bytesLt] at h1
  | cons x xs ih =>
    cases b with
    | nil => rfl
    | cons y ys =>
      rw [bytesLt_cons]
      have h1a : ¬ (x < y ∨ (x = y ∧ bytesLt xs ys = true)) := by
        rw [← bytesLt_cons, h1]
        simp
      simp only [not_or, not_and] at h1a
      by_cases hxy : x = y
      · subst hxy
        have h3 : bytesLt xs ys = false := by
          simpa using h1a.2 rfl
        have h4 : xs ≠ ys := fun e => h2 (by rw [e])
        exact Or.inr ⟨rfl, ih ys h3 h4⟩
      · exact Or.inl (by omega)

theorem bytesLt_of_hasPrefix (k p : Bytes) (h : bytesHasPrefix k p = true) :
    bytesLt k p = false := by
  induction p generalizing k with
  | nil => cases k <;> rfl
  | cons b ps ih =>
    cases k with
    | nil => simp [bytesHasPrefix] at h
    | cons a as =>
      simp only [bytesHasPrefix] at h
      by_cases hab : a = b
      · subst hab
        simp only [if_true] at h
        simp [bytesLt, ih as h]
      · simp [hab] at h

/-- A key at or above `p` without the prefix `p` is below no key with the prefix. -/
theorem hasPrefix_false_of_lt (p k k1 : Bytes) (h1 : bytesLt k p = false)
    (h2 : bytesHasPrefix k p = false) (h3 : bytesLt k k1 = true) :
    bytesHasPrefix k1 p = false := by
  induction p generalizing k k1 with
  | nil => cases k <;> simp [bytesHasPrefix] at h2
  | cons b ps ih =>
    cases k with
    | nil => simp [bytesLt] at h1
    | cons a as =>
      cases k1 with
      | nil => rfl
      | cons a1 as1 =>
        rw [bytesLt_cons] at h3
        have h1a : ¬ (a < b ∨ (a = b ∧ bytesLt as ps = true)) := by
          rw [← bytesLt_cons, h1]
          simp
        simp only [not_or, not_and] at h1a
        simp only [bytesHasPrefix] at h2 ⊢
        by_cases hab : a = b
        · subst hab
          simp only [if_true] at h2
          have h4 : bytesLt as ps = false := by
            simpa using h1a.2 rfl
          rcases h3 with h3 | ⟨e3, h3⟩
          · have : a1 ≠ a := by omega
            simp [this]
          · subst e3
            simp [ih as as1 h4 h2 h3]
        · have : a1 ≠ b := by
            rcases h3 with h3 | ⟨e3, _⟩ <;> omega
          simp [this]

theorem Tree.Sorted_tail {α : Type} (e : Bytes × α) (t : Tree α) (h : Tree.Sorted (e :: t)) :
    Tree.Sorted t :=
  (List.pairwise_cons.1 h).2

theorem Tree.Sorted_head {α : Type} (e : Bytes × α) (t : Tree α) (h : Tree.Sorted (e :: t)) :
    ∀ e1 ∈ t, bytesLt e.1 e1.1 = true :=
  (List.pairwise_cons.1 h).1

theorem takeWhile_eq_filter_of_ge {α : Type} (t : Tree α) (p : Bytes) (hs : Tree.Sorted t)
    (hge : ∀ e ∈ t, bytesLt e.1 p = false) :
    t.takeWhile (fun e => bytesHasPrefix e.1 p) = t.filter (fun e => bytesHasPrefix e.1 p) := by
  induction t with
  | nil => rfl
  | cons e rest ih =>
    have hrest := ih (Tree.Sorted_tail e rest hs) fun e1 h1 => hge e1 (List.mem_cons_of_mem _ h1)
    by_cases hp : bytesHasPrefix e.1 p = true
    · simp [List.takeWhile, List.filter, hp, hrest]
    · have hp1 : bytesHasPrefix e.1 p = false := by simpa using hp
      have hnil : rest.filter (fun e => bytesHasPrefix e.1 p) = [] := by
        rw [List.filter_eq_nil_iff]
        intro e1 h1
        have := hasPrefix_false_of_lt p e.1 e1.1 (hge e (List.mem_cons_self _ _)) hp1
          (Tree.Sorted_head e rest hs e1 h1)
        simp [this]
      simp [List.takeWhile, List.filter, hp1, hnil]

/-- On a sorted map the cursor scan returns exactly the entries whose key has the
prefix, in key order. -/
theorem Tree.scan_eq_filter {α : Type} (t : Tree α) (p : Bytes) (hs : Tree.Sorted t) :
    t.scan p = t.filter (fun e => bytesHasPrefix e.1 p) := by
  induction t with
  | nil => rfl
  | cons e rest ih =>
    by_cases hlt : bytesLt e.1 p = true
    · have hp : bytesHasPrefix e.1 p = false := by
        cases hh : bytesHasPrefix e.1 p with
        | false => rfl
        | true =>
          rw [bytesLt_of_hasPrefix _ _ hh] at hlt
          exact absurd hlt (by simp)
      have := ih (Tree.Sorted_tail e rest hs)
      unfold Tree.scan at this ⊢
      simp [List.dropWhile, List.filter, hlt, hp, this]
    · have hlt1 : bytesLt e.1 p = false := by simpa using hlt
      have hge : ∀ e1 ∈ e :: rest, bytesLt e1.1 p = false := by
        intro e1 h1
        rcases List.mem_cons.1 h1 with rfl | h1
        · exact hlt1
        · cases hh : bytesLt e1.1 p with
          | false => rfl
          | true =>
            have := bytesLt_trans _ _ _ (Tree.Sorted_head e rest hs e1 h1) hh
            rw [hlt1] at this
            exact absurd this (by simp)
      unfold Tree.scan
      simp only [List.dropWhile, hlt1]
      exact takeWhile_eq_filter_of_ge (e :: rest) p hs hge

/-! ## Writes keep the map sorted -/

theorem Tree.put_cons {α : Type} (k0 : Bytes) (v0 : α) (rest : Tree α) (k : Bytes) (v : α) :
    Tree.put ((k0, v0) :: rest) k v =
      if bytesLt k0 k = true then (k0, v0) :: Tree.put rest k v
      else if k0 = k then (k, v) :: rest
      else (k, v) :: (k0, v0) :: rest := rfl

theorem Tree.mem_put {α : Type} (t : Tree α) (k : Bytes) (v : α) (e : Bytes × α)
    (h : e ∈ t.put k v) : e = (k, v) ∨ e ∈ t := by
  induction t with
  | nil =>
    simp only [Tree.put, List.mem_singleton] at h
    exact Or.inl h
  | cons e0 rest ih =>
    obtain ⟨k0, v0⟩ := e0
    rw [Tree.put_cons] at h
    by_cases h1 : bytesLt k0 k = true
    · rw [if_pos h1] at h
      rcases List.mem_cons.1 h with h | h
      · exact Or.inr (List.mem_cons.2 (Or.inl h))
      · rcases ih h with h | h
        · exact Or.inl h
        · exact Or.inr (List.mem_cons_of_mem _ h)
    · by_cases h2 : k0 = k
      · rw [if_neg h1, if_pos h2] at h
        rcases List.mem_cons.1 h with h | h
        · exact Or.inl h
        · exact Or.inr (List.mem_cons_of_mem _ h)
      · rw [if_neg h1, if_neg h2] at h
        rcases List.mem_cons.1 h with h | h
        · exact Or.inl h
        · exact Or.inr h

theorem Tree.mem_put_self {α : Type} (t : Tree α) (k : Bytes) (v : α) : (k, v) ∈ t.put k v := by
  induction t with
  | nil => simp [Tree.put]
  | cons e0 rest ih =>
    obtain ⟨k0, v0⟩ := e0
    rw [Tree.put_cons]
    by_cases h1 : bytesLt k0 k = true
    · rw [if_pos h1]
      exact List.mem_cons_of_mem _ ih
    · by_cases h2 : k0 = k
      · rw [if_neg h1, if_pos h2]
        exact List.mem_cons_self _ _
      · rw [if_neg h1, if_neg h2]
        exact List.mem_cons_self _ _

theorem Tree.mem_put_of_mem {α : Type} (t : Tree α) (k : Bytes) (v : α) (e : Bytes × α)
    (h : e ∈ t) (hk : e.1 ≠ k) : e ∈ t.put k v := by
  induction t with
  | nil => simp at h
  | cons e0 rest ih =>
    obtain ⟨k0, v0⟩ := e0
    rw [Tree.put_cons]
    by_cases h1 : bytesLt k0 k = true
    · rw [if_pos h1]
      rcases List.mem_cons.1 h with h | h
      · exact List.mem_cons.2 (Or.inl h)
      · exact List.mem_cons_of_mem _ (ih h)
    · by_cases h2 : k0 = k
      · rw [if_neg h1, if_pos h2]
        rcases List.mem_cons.1 h with h | h
        · rw [h] at hk
          exact absurd h2 hk
        · exact List.mem_cons_of_mem _ h
      · rw [if_neg h1, if_neg h2]
        exact List.mem_cons_of_mem _ h

theorem Tree.put_sorted {α : Type} (t : Tree α) (k : Bytes) (v : α) (hs : Tree.Sorted t) :
    Tree.Sorted (t.put k v) := by
  induction t with
  | nil => simp [Tree.put, Tree.Sorted]
  | cons e0 rest ih =>
    obtain ⟨k0, v0⟩ := e0
    have hrest := Tree.Sorted_tail _ _ hs
    have hhead := Tree.Sorted_head _ _ hs
    rw [Tree.put_cons]
    by_cases h1 : bytesLt k0 k = true
    · rw [if_pos h1]
      refine List.pairwise_cons.2 ⟨?_, ih hrest⟩
      intro e he
      rcases Tree.mem_put _ _ _ _ he with rfl | he
      · exact h1
      · exact hhead e he
    · by_cases h2 : k0 = k
      · rw [if_neg h1, if_pos h2]
        subst h2
        exact List.pairwise_cons.2 ⟨hhead, hrest⟩
      · rw [if_neg h1, if_neg h2]
        have h3 : bytesLt k k0 = true := bytesLt_total k0 k (by simpa using h1) h2
        refine List.pairwise_cons.2 ⟨?_, hs⟩
        intro e he
        rcases List.mem_cons.1 he with rfl | he
        · exact h3
        · exact bytesLt_trans _ _ _ h3 (hhead e he)

/-! ## The item keys -/

/-- Item keys of positive ids ascend in bytes exactly when the ids descend. -/
theorem itemKey_lt_iff (a b : Int) (ha : 0 < a) (ha1 : a < 2 ^ 63) (hb : 0 < b)
    (hb1 : b < 2 ^ 63) : bytesLt (itemKey a) (itemKey b) = true ↔ b < a := by
  unfold itemKey
  rw [bytesLt_append_left, bytesLt_bigEndian64 _ _ (toUint64_lt _) (toUint64_lt _)]
  unfold toUint64
  omega

theorem itemKey_injective (a b : Int) (ha : -2 ^ 63 ≤ a) (ha1 : a < 2 ^ 63) (hb : -2 ^ 63 ≤ b)
    (hb1 : b < 2 ^ 63) (h : itemKey a = itemKey b) : a = b := by
  unfold itemKey at h
  have h1 := bigEndian64_injective _ _ (toUint64_lt _) (toUint64_lt _) (List.append_cancel_left h)
  unfold toUint64 at h1
  omega

theorem itemKey_hasPrefix (id : Int) : bytesHasPrefix (itemKey id) (lit "item:id:") = true :=
  bytesHasPrefix_append _ _

theorem hashKey_hasPrefix (L : Lib) (f : Feed) :
    bytesHasPrefix (hashKey L f) (lit "item:id:") = false := by
  simp [hashKey, lit, bytesHasPrefix]

/-! ## Adding feeds to an empty bucket -/

theorem addToBucket_sorted (L : Lib) (b : Bucket) (f : Feed) (hs : Tree.Sorted b) :
    Tree.Sorted (addToBucket L b f) :=
  Tree.put_sorted _ _ _ (Tree.put_sorted _ _ _ hs)

theorem addToBucket_items (L : Lib) (b : Bucket) (f : Feed) (done : List Feed)
    (hinv : ∀ e, (e ∈ b ∧ bytesHasPrefix e.1 (lit "item:id:") = true) ↔
      ∃ g ∈ done, e = itemEntry L g)
    (hnew : ∀ g ∈ done, itemKey g.Id ≠ itemKey f.Id) :
    ∀ e, (e ∈ addToBucket L b f ∧ bytesHasPrefix e.1 (lit "item:id:") = true) ↔
      ∃ g ∈ done ++ [f], e = itemEntry L g := by
  intro e
  unfold addToBucket
  constructor
  · rintro ⟨hmem, hp⟩
    rcases Tree.mem_put _ _ _ _ hmem with rfl | hmem
    · rw [hashKey_hasPrefix] at hp
      exact absurd hp (by simp)
    · rcases Tree.mem_put _ _ _ _ hmem with rfl | hmem
      · exact ⟨f, by simp, rfl⟩
      · obtain ⟨g, hg, rfl⟩ := (hinv e).1 ⟨hmem, hp⟩
        exact ⟨g, by simp [hg], rfl⟩
  · rintro ⟨g, hg, rfl⟩
    refine ⟨?_, itemKey_hasPrefix _⟩
    apply Tree.mem_put_of_mem _ _ _ _ _ (hashKey_ne_itemKey L f g.Id).symm
    rcases List.mem_append.1 hg with hg | hg
    · have := ((hinv (itemEntry L g)).2 ⟨g, hg, rfl⟩).1
      exact Tree.mem_put_of_mem _ _ _ _ this (hnew g hg)
    · rw [List.mem_singleton.1 hg]
      exact Tree.mem_put_self _ _ _

theorem foldl_addToBucket_inv (L : Lib) (fs done : List Feed) (b : Bucket)
    (hs : Tree.Sorted b)
    (hinv : ∀ e, (e ∈ b ∧ bytesHasPrefix e.1 (lit "item:id:") = true) ↔
      ∃ g ∈ done, e = itemEntry L g)
    (hkeys : (done ++ fs).Pairwise fun x y => itemKey x.Id ≠ itemKey y.Id) :
    Tree.Sorted (fs.foldl (addToBucket L) b) ∧
    ∀ e, (e ∈ fs.foldl (addToBucket L) b ∧ bytesHasPrefix e.1 (lit "item:id:") = true) ↔
      ∃ g ∈ done ++ fs, e = itemEntry L g := by
  induction fs generalizing b done with
  | nil =>
    simp only [List.foldl_nil, List.append_nil]
    exact ⟨hs, hinv⟩
  | cons f fs ih =>
    have hnew : ∀ g ∈ done, itemKey g.Id ≠ itemKey f.Id := by
      intro g hg
      exact (List.pairwise_append.1 hkeys).2.2 g hg f (List.mem_cons_self _ _)
    have hkeys1 : (done ++ [f] ++ fs).Pairwise fun x y => itemKey x.Id ≠ itemKey y.Id := by
      rw [List.append_assoc]
      exact hkeys
    have h1 := ih (done ++ [f]) (addToBucket L b f) (addToBucket_sorted L b f hs)
      (addToBucket_items L b f done hinv hnew) hkeys1
    rw [List.append_assoc] at h1
    exact h1

theorem bucketOf_addFeeds (L : Lib) (c : Channel) (db : DB) (fs : List Feed) :
    bucketOf (addFeeds L c db fs) (channelBucket c.Name) =
      fs.foldl (addToBucket L) (bucketOf db (channelBucket c.Name)) := by
  induction fs generalizing db with
  | nil => rfl
  | cons f fs ih =>
    unfold addFeeds at ih ⊢
    simp only [List.foldl_cons]
    rw [ih, AddFeed_eq, bucketOf_put_self]
    rfl

theorem decodeFeeds_eq_map (L : Lib) (es : List (Bytes × Bytes)) (acc : List Feed)
    (h : ∀ e ∈ es, ∃ f, L.unmarshalFeed e.2 = .ok f) :
    decodeFeeds L es acc = (acc ++ es.map (decodeValue L), none) := by
  induction es generalizing acc with
  | nil => simp [decodeFeeds]
  | cons e rest ih =>
    obtain ⟨k, v⟩ := e
    obtain ⟨f, hf⟩ := h (k, v) (List.mem_cons_self _ _)
    have hf1 : L.unmarshalFeed v = .ok f := hf
    unfold decodeFeeds
    simp only [hf1]
    rw [ih _ fun e he => h e (List.mem_cons_of_mem _ he)]
    simp [decodeValue, hf1]

/-- C2, as the code has it: feeds with pairwise distinct positive ids, each of
which `json.Unmarshal` gives back unchanged from its `json.Marshal` text, are
added in any order to a channel whose bucket is empty; then `GetFeeds` returns
without error a list that holds exactly those feeds, each once, in strictly
descending order of id; and the item keys of two positive ids ascend in bytes
exactly when the ids descend. -/
theorem GetFeeds_descending (L : Lib) (db : DB) (c : Channel) (fs : List Feed)
    (hempty : bucketOf db (channelBucket c.Name) = [])
    (hrange : ∀ f ∈ fs, 0 < f.Id ∧ f.Id < 2 ^ 63)
    (hdist : fs.Pairwise fun a b => a.Id ≠ b.Id)
    (hrt : ∀ f ∈ fs, L.unmarshalFeed (L.marshalFeed f) = .ok f) :
    (∃ R, (c.GetFeeds L (addFeeds L c db fs) 0 100).2 = (R, none) ∧ R.Perm fs ∧
      R.Pairwise fun a b => b.Id < a.Id) ∧
    ∀ a b : Int, 0 < a → a < 2 ^ 63 → 0 < b → b < 2 ^ 63 →
      (bytesLt (itemKey a) (itemKey b) = true ↔ b < a) := by
  refine ⟨?_, fun a b ha ha1 hb hb1 => itemKey_lt_iff a b ha ha1 hb hb1⟩
  have hkeys : (([] : List Feed) ++ fs).Pairwise fun x y => itemKey x.Id ≠ itemKey y.Id := by
    rw [List.nil_append]
    refine List.Pairwise.imp_of_mem ?_ hdist
    intro x y hx hy hne hk
    have rx := hrange x hx
    have ry := hrange y hy
    exact hne (itemKey_injective x.Id y.Id (by omega) rx.2 (by omega) ry.2 hk)
  obtain ⟨hs, hmem⟩ := foldl_addToBucket_inv L fs [] [] List.Pairwise.nil
    (fun e => by simp) hkeys
  rw [List.nil_append] at hmem
  have hE : ∀ e ∈ (fs.foldl (addToBucket L) []).filter
      (fun e => bytesHasPrefix e.1 (lit "item:id:")),
      ∃ g ∈ fs, e = itemEntry L g ∧ decodeValue L e = g := by
    intro e he
    rw [List.mem_filter] at he
    obtain ⟨g, hg, rfl⟩ := (hmem e).1 he
    refine ⟨g, hg, rfl, ?_⟩
    simp [decodeValue, itemEntry, hrt g hg]
  have hsortedE : ((fs.foldl (addToBucket L) []).filter
      (fun e => bytesHasPrefix e.1 (lit "item:id:"))).Pairwise
      (fun a b => bytesLt a.1 b.1 = true) := List.Pairwise.filter _ hs
  refine ⟨((fs.foldl (addToBucket L) []).filter
    (fun e => bytesHasPrefix e.1 (lit "item:id:"))).map (decodeValue L), ?_, ?_, ?_⟩
  · rw [GetFeeds_eq, bucketOf_addFeeds, hempty, Tree.scan_eq_filter _ _ hs,
      decodeFeeds_eq_map L _ []]
    · rfl
    · intro e he
      obtain ⟨g, hg, rfl, _⟩ := hE e he
      exact ⟨g, hrt g hg⟩
  · have hdesc : (((fs.foldl (addToBucket L) []).filter
        (fun e => bytesHasPrefix e.1 (lit "item:id:"))).map (decodeValue L)).Pairwise
        (fun a b => b.Id < a.Id) := by
      rw [List.pairwise_map]
      refine List.Pairwise.imp_of_mem ?_ hsortedE
      intro x y hx hy hlt
      obtain ⟨gx, hgx, ex, dx⟩ := hE x hx
      obtain ⟨gy, hgy, ey, dy⟩ := hE y hy
      rw [dx, dy]
      rw [ex, ey] at hlt
      have rx := hrange gx hgx
      have ry := hrange gy hgy
      exact (itemKey_lt_iff gx.Id gy.Id rx.1 rx.2 ry.1 ry.2).1 hlt
    have hnd1 : (((fs.foldl (addToBucket L) []).filter
        (fun e => bytesHasPrefix e.1 (lit "item:id:"))).map (decodeValue L)).Nodup := by
      refine List.Pairwise.imp ?_ hdesc
      intro a b hab e
      rw [e] at hab
      omega
    have hnd2 : fs.Nodup := by
      refine List.Pairwise.imp ?_ hdist
      intro a b hab e
      exact hab (by rw [e])
    rw [List.perm_ext_iff_of_nodup hnd1 hnd2]
    intro f
    constructor
    · intro hf
      obtain ⟨e, he, rfl⟩ := List.mem_map.1 hf
      obtain ⟨g, hg, _, dg⟩ := hE e he
      rw [dg]
      exact hg
    · intro hf
      have h1 := (hmem (itemEntry L f)).2 ⟨f, hf, rfl⟩
      refine List.mem_map.2 ⟨itemEntry L f, List.mem_filter.2 ⟨h1.1, h1.2⟩, ?_⟩
      simp [decodeValue, itemEntry, hrt f hf]
  · rw [List.pairwise_map]
    refine List.Pairwise.imp_of_mem ?_ hsortedE
    intro x y hx hy hlt
    obtain ⟨gx, hgx, ex, dx⟩ := hE x hx
    obtain ⟨gy, hgy, ey, dy⟩ := hE y hy
    rw [dx, dy]
    rw [ex, ey] at hlt
    have rx := hrange gx hgx
    have ry := hrange gy hgy
    exact (itemKey_lt_iff gx.Id gy.Id rx.1 rx.2 ry.1 ry.2).1 hlt

theorem exThree_roundtrip :
    ∀ f ∈ exThree, refLib.unmarshalFeed (refLib.marshalFeed f) = .ok f := by
  intro f hf
  simp only [exThree, List.mem_cons, List.mem_singleton, List.not_mem_nil, or_false] at hf
  rcases hf with rfl | rfl | rfl <;> rfl

theorem exThree_range : ∀ f ∈ exThree, 0 < f.Id ∧ f.Id < 2 ^ 63 := by
  intro f hf
  simp only [exThree, List.mem_cons, List.mem_singleton, List.not_mem_nil, or_false] at hf
  rcases hf with rfl | rfl | rfl <;> decide

/-- C2 on the empty store: the ids 1002, 1001 and 1003 are added in this order
and come back as 1003, 1002, 1001. -/
theorem GetFeeds_descending_witness :
    bucketOf [] (channelBucket exNews.Name) = [] ∧
    (∀ f ∈ exThree, 0 < f.Id ∧ f.Id < 2 ^ 63) ∧
    (exThree.Pairwise fun a b => a.Id ≠ b.Id) ∧
    (∀ f ∈ exThree, refLib.unmarshalFeed (refLib.marshalFeed f) = .ok f) ∧
    (∃ R, (exNews.GetFeeds refLib (addFeeds refLib exNews [] exThree) 0 100).2 = (R, none) ∧
      R.Perm exThree ∧ R.Pairwise fun a b => b.Id < a.Id) ∧
    (exNews.GetFeeds refLib (addFeeds refLib exNews [] exThree) 0 100).2.1.map Feed.Id =
      [1003, 1002, 1001] :=
  ⟨rfl, exThree_range, by decide, exThree_roundtrip,
    (GetFeeds_descending refLib [] exNews exThree rfl exThree_range (by decide)
      exThree_roundtrip).1, by rfl⟩

/-! ## The id generator -/

theorem settingsIdKey_ne_nil : settingsIdKey ≠ [] := by
  decide

theorem wrapInt64_of_range (i : Int) (h1 : -2 ^ 63 ≤ i) (h2 : i < 2 ^ 63) : wrapInt64 i = i := by
  unfold wrapInt64
  omega

theorem genStep_eq (s : Sys) (b : Bucket) (h : s.db.get settingsBucketName = some b) :
    genStep s = some
      { db := s.db.put settingsBucketName
          (b.put settingsIdKey (Itoa (wrapInt64 (s.globalId + 1)))),
        globalId := wrapInt64 (s.globalId + 1), offering := true } := by
  have hk1 : ¬ settingsIdKey.length > MaxKeySize := by decide
  unfold genStep
  simp [h, bucketPut, settingsIdKey_ne_nil, hk1]

theorem init_eq (db : DB) (b : Bucket) (h : db.get settingsBucketName = some b) :
    init db =
      match b.get settingsIdKey with
      | none => .ok { db := db, globalId := 1000, offering := false }
      | some r =>
        match Atoi r with
        | none => .error "invalid syntax"
        | some g => .ok { db := db, globalId := g, offering := false } := by
  have hne : settingsBucketName ≠ [] := by decide
  have hens : ensureBucket db settingsBucketName = db :=
    ensureBucket_of_get _ _ (by rw [h]; simp)
  have hbo : bucketOf db settingsBucketName = b := by
    simp [bucketOf, h]
  unfold init Update
  dsimp only
  rw [CreateBucketIfNotExists_eq _ _ hne, hens]
  simp only [bucketGet_eq, hbo]
  cases hr : b.get settingsIdKey with
  | none => rfl
  | some r => cases hg : Atoi r <;> simp [hg]

theorem persistedId_put (db : DB) (b : Bucket) (i : Int) (h1 : -2 ^ 63 ≤ i) (h2 : i < 2 ^ 63) :
    persistedId (db.put settingsBucketName (b.put settingsIdKey (Itoa i))) = some i := by
  unfold persistedId
  rw [bucketGet_eq, bucketOf_put_self, Tree.get_put_self]
  exact Atoi_Itoa i h1 h2

/-- One step keeps the invariant, as long as `globalId` stays below the largest
`int`. -/
theorem genEvent_inv (t t1 : GenTrace) (e : GenEvent) (n : Nat) (hinv : GenInv t n)
    (hn : (n : Int) + 1001 < 2 ^ 63) (hstep : genEvent t e = some t1) : GenInv t1 (n + 1) := by
  obtain ⟨⟨b, hb⟩, ⟨hlo, hhi⟩, hper, hsorted, hle⟩ := hinv
  cases e with
  | persist =>
    unfold genEvent at hstep
    by_cases ho : t.sys.offering = true
    · simp [ho] at hstep
    · have ho1 : t.sys.offering = false := by simpa using ho
      simp only [ho1, Bool.false_eq_true, if_false, genStep_eq _ _ hb, Option.map_some',
        Option.some.injEq] at hstep
      have hw : wrapInt64 (t.sys.globalId + 1) = t.sys.globalId + 1 :=
        wrapInt64_of_range _ (by omega) (by omega)
      rw [hw] at hstep
      subst hstep
      refine ⟨⟨_, Tree.get_put_self _ _ _⟩, ⟨by dsimp only; omega, by dsimp only; push_cast; omega⟩,
        Or.inl (persistedId_put _ _ _ (by omega) (by omega)), hsorted, ?_⟩
      intro v hv
      have := (hle v hv).1
      dsimp only
      exact ⟨by omega, fun _ => by omega⟩
  | issue =>
    unfold genEvent at hstep
    by_cases ho : t.sys.offering = true
    · simp only [ho, if_true, Option.some.injEq] at hstep
      subst hstep
      refine ⟨⟨b, hb⟩, ⟨hlo, by push_cast; omega⟩, ?_, ?_, ?_⟩
      · rcases hper with h | h
        · exact Or.inl h
        · rw [ho] at h
          exact absurd h.2.2.1 (by simp)
      · exact List.pairwise_cons.2 ⟨fun w hw => (hle w hw).2 ho, hsorted⟩
      · intro v hv
        dsimp only at hv ⊢
        rcases List.mem_cons.1 hv with rfl | hv
        · exact ⟨le_refl _, fun h => absurd h (by simp)⟩
        · exact ⟨(hle v hv).1, fun h => absurd h (by simp)⟩
    · simp [ho] at hstep
  | restart =>
    unfold genEvent at hstep
    rw [init_eq _ _ hb] at hstep
    have hget : bucketGet t.sys.db settingsBucketName settingsIdKey = b.get settingsIdKey := by
      simp [bucketGet, hb]
    rcases hper with h | h
    · unfold persistedId at h
      rw [hget] at h
      cases hr : b.get settingsIdKey with
      | none => simp [hr] at h
      | some r =>
        rw [hr] at h
        have hat : Atoi r = some t.sys.globalId := h
        simp only [hr, hat, Option.some.injEq] at hstep
        subst hstep
        refine ⟨⟨b, hb⟩, ⟨hlo, by push_cast; omega⟩, Or.inl ?_, hsorted, ?_⟩
        · unfold persistedId
          rw [hget, hr]
          exact hat
        · intro v hv
          exact ⟨(hle v hv).1, fun h => absurd h (by simp)⟩
    · obtain ⟨h1, h2, h3, h4⟩ := h
      rw [hget] at h1
      simp only [h1, Option.some.injEq] at hstep
      subst hstep
      refine ⟨⟨b, hb⟩, ⟨by simp, by push_cast; omega⟩, Or.inr ⟨?_, rfl, rfl, h4⟩, hsorted, ?_⟩
      · rw [hget]
        exact h1
      · intro v hv
        rw [h4] at hv
        simp at hv

theorem genRun_inv (evs : List GenEvent) (t t1 : GenTrace) (n : Nat) (hinv : GenInv t n)
    (hn : (n : Int) + (evs.length : Int) + 1000 < 2 ^ 63) (hrun : genRun t evs = some t1) :
    GenInv t1 (n + evs.length) := by
  induction evs generalizing t n with
  | nil =>
    simp only [genRun, Option.some.injEq] at hrun
    subst hrun
    exact hinv
  | cons e es ih =>
    unfold genRun at hrun
    cases hstep : genEvent t e with
    | none => simp [hstep] at hrun
    | some t2 =>
      simp only [hstep] at hrun
      simp only [List.length_cons, Nat.cast_add, Nat.cast_one] at hn
      have h2 := genEvent_inv t t2 e n hinv (by omega) hstep
      have h3 := ih t2 (n + 1) h2 (by push_cast; omega) hrun
      rw [List.length_cons]
      rw [show n + (es.length + 1) = n + 1 + es.length by omega]
      exact h3

theorem genBoot_empty : genBoot [] = some { sys := exBootSys, issued := [] } := by
  rfl

theorem GenInv_boot : GenInv { sys := exBootSys, issued := [] } 0 := by
  refine ⟨⟨[], by decide⟩, ⟨by decide, by decide⟩, Or.inr ⟨by decide, rfl, rfl, rfl⟩,
    List.Pairwise.nil, ?_⟩
  intro v hv
  simp at hv

theorem genEvent_issued (t t1 : GenTrace) (e : GenEvent) (h : genEvent t e = some t1) :
    ∃ new, t1.issued = new ++ t.issued := by
  cases e with
  | persist =>
    unfold genEvent at h
    by_cases ho : t.sys.offering = true
    · simp [ho] at h
    · have ho1 : t.sys.offering = false := by simpa using ho
      cases hs : genStep t.sys with
      | none => simp [ho1, hs] at h
      | some s1 =>
        simp only [ho1, Bool.false_eq_true, if_false, hs, Option.map_some',
          Option.some.injEq] at h
        subst h
        exact ⟨[], rfl⟩
  | issue =>
    unfold genEvent at h
    by_cases ho : t.sys.offering = true
    · simp only [ho, if_true, Option.some.injEq] at h
      subst h
      exact ⟨[t.sys.globalId], rfl⟩
    · simp [ho] at h
  | restart =>
    unfold genEvent at h
    cases hi : init t.sys.db with
    | error e => simp [hi] at h
    | ok s1 =>
      simp only [hi, Option.some.injEq] at h
      subst h
      exact ⟨[], rfl⟩

theorem genRun_issued (evs : List GenEvent) (t t1 : GenTrace) (h : genRun t evs = some t1) :
    ∃ new, t1.issued = new ++ t.issued := by
  induction evs generalizing t with
  | nil =>
    simp only [genRun, Option.some.injEq] at h
    subst h
    exact ⟨[], rfl⟩
  | cons e es ih =>
    unfold genRun at h
    cases hstep : genEvent t e with
    | none => simp [hstep] at h
    | some t2 =>
      simp only [hstep] at h
      obtain ⟨n1, h1⟩ := genEvent_issued t t2 e hstep
      obtain ⟨n2, h2⟩ := ih t2 h
      exact ⟨n2 ++ n1, by rw [h2, h1, List.append_assoc]⟩

theorem genRun_append (a b : List GenEvent) (t : GenTrace) :
    genRun t (a ++ b) = (genRun t a).bind fun t1 => genRun t1 b := by
  induction a generalizing t with
  | nil => rfl
  | cons e es ih =>
    simp only [List.cons_append, genRun]
    cases genEvent t e with
    | none => rfl
    | some t2 => exact ih t2

theorem genEvent_first (t t1 : GenTrace) (e : GenEvent) (hinv : FirstInv t)
    (he : e ≠ .restart) (h : genEvent t e = some t1) : FirstInv t1 := by
  obtain ⟨h1, h2⟩ := hinv
  cases e with
  | restart => exact absurd rfl he
  | persist =>
    unfold genEvent at h
    by_cases ho : t.sys.offering = true
    · simp [ho] at h
    · have ho1 : t.sys.offering = false := by simpa using ho
      cases hb : t.sys.db.get settingsBucketName with
      | none => simp [ho1, genStep, hb] at h
      | some b =>
        simp only [ho1, Bool.false_eq_true, if_false, genStep_eq _ _ hb, Option.map_some',
          Option.some.injEq] at h
        subst h
        refine ⟨?_, h2⟩
        intro hnil
        rcases h1 hnil with ⟨_, hg⟩ | ⟨hoff, _⟩
        · right
          refine ⟨rfl, ?_⟩
          dsimp only
          rw [hg]
          decide
        · rw [ho1] at hoff
          exact absurd hoff (by simp)
  | issue =>
    unfold genEvent at h
    by_cases ho : t.sys.offering = true
    · simp only [ho, if_true, Option.some.injEq] at h
      subst h
      refine ⟨fun hnil => absurd hnil (by simp), ?_⟩
      intro v hv
      dsimp only at hv
      cases hl : t.issued with
      | nil =>
        rw [hl] at hv
        simp only [List.getLast?_singleton, Option.some.injEq] at hv
        rcases h1 hl with ⟨hoff, _⟩ | ⟨_, hg⟩
        · rw [ho] at hoff
          exact absurd hoff (by simp)
        · rw [← hv, hg]
      | cons w ws =>
        rw [hl, List.getLast?_cons_cons] at hv
        rw [hl] at h2
        exact h2 v hv
    · simp [ho] at h

theorem genRun_first (evs : List GenEvent) (t t1 : GenTrace) (hinv : FirstInv t)
    (he : ∀ e ∈ evs, e ≠ .restart) (h : genRun t evs = some t1) : FirstInv t1 := by
  induction evs generalizing t with
  | nil =>
    simp only [genRun, Option.some.injEq] at h
    subst h
    exact hinv
  | cons e es ih =>
    unfold genRun at h
    cases hstep : genEvent t e with
    | none => simp [hstep] at h
    | some t2 =>
      simp only [hstep] at h
      exact ih t2 (genEvent_first t t2 e hinv (he e (List.mem_cons_self _ _)) hstep)
        (fun e1 h1 => he e1 (List.mem_cons_of_mem _ h1)) h

/-- C8: in every state the generator reaches from an empty store while `globalId`
stays below the largest `int`: each value handed out is strictly greater than
every value handed out before it; each value handed out is at most the value
stored under `id`, and a value waiting to be handed out is the stored value (it
is stored before it is released); the values handed out after a restart are
strictly greater than every value handed out before it; and the first value
handed out by the process that started on the empty store is 1001. -/
theorem idgen_strictly_increasing (evs : List GenEvent) (t0 t : GenTrace)
    (hboot : genBoot [] = some t0) (hrun : genRun t0 evs = some t)
    (hbound : (evs.length : Int) + 1000 < 2 ^ 63) :
    (t.issued.Pairwise fun newer older => older < newer) ∧
    (∀ v ∈ t.issued, ∃ p, persistedId t.sys.db = some p ∧ v ≤ p) ∧
    (t.sys.offering = true → persistedId t.sys.db = some t.sys.globalId) ∧
    (∀ evs1 evs2 t1, evs = evs1 ++ GenEvent.restart :: evs2 → genRun t0 evs1 = some t1 →
      ∃ new, t.issued = new ++ t1.issued ∧ ∀ v ∈ new, ∀ w ∈ t1.issued, w < v) ∧
    ((∀ e ∈ evs, e ≠ GenEvent.restart) → ∀ v, t.issued.getLast? = some v → v = 1001) := by
  rw [genBoot_empty, Option.some.injEq] at hboot
  subst hboot
  have hinv := genRun_inv evs _ t 0 GenInv_boot (by push_cast; omega) hrun
  obtain ⟨_, _, hper, hsorted, hle⟩ := hinv
  refine ⟨hsorted, ?_, ?_, ?_, ?_⟩
  · intro v hv
    rcases hper with h | h
    · exact ⟨_, h, (hle v hv).1⟩
    · rw [h.2.2.2] at hv
      simp at hv
  · intro ho
    rcases hper with h | h
    · exact h
    · rw [ho] at h
      exact absurd h.2.2.1 (by simp)
  · intro evs1 evs2 t1 hsplit hrun1
    rw [hsplit, genRun_append, hrun1] at hrun
    obtain ⟨new, hnew⟩ := genRun_issued _ _ _ hrun
    refine ⟨new, hnew, ?_⟩
    rw [hnew] at hsorted
    intro v hv w hw
    exact (List.pairwise_append.1 hsorted).2.2 v hv w hw
  · intro hno
    have hfirst : FirstInv { sys := exBootSys, issued := [] } :=
      ⟨fun _ => Or.inl ⟨rfl, rfl⟩, fun v hv => by simp at hv⟩
    exact (genRun_first evs _ t hfirst hno hrun).2

/-- C8 on the run `exRun`, with two restarts, and on the first hand-over of a
process started on the empty store. -/
theorem idgen_strictly_increasing_witness :
    genBoot [] = some { sys := exBootSys, issued := [] } ∧
    genRun { sys := exBootSys, issued := [] } exRun = some exRunEnd ∧
    (exRun.length : Int) + 1000 < 2 ^ 63 ∧
    (exRunEnd.issued.Pairwise fun newer older => older < newer) ∧
    (∀ v ∈ exRunEnd.issued, ∃ p, persistedId exRunEnd.sys.db = some p ∧ v ≤ p) ∧
    (∀ t, genRun { sys := exBootSys, issued := [] } [.persist, .issue] = some t →
      ∀ v, t.issued.getLast? = some v → v = 1001) ∧
    (genRun { sys := exBootSys, issued := [] } [.persist, .issue]).map GenTrace.issued =
      some [1001] :=
  ⟨rfl, by decide, by decide,
    (idgen_strictly_increasing exRun _ exRunEnd rfl (by decide) (by decide)).1,
    (idgen_strictly_increasing exRun _ exRunEnd rfl (by decide) (by decide)).2.1,
    fun t ht => (idgen_strictly_increasing [.persist, .issue] _ t rfl ht (by decide)).2.2.2.2
      (by decide),
    by decide⟩

/-- C2 as stated fails: a feed with a positive id whose title is the byte `0xff`
is added to the empty bucket of `news`; the JSON text holds the escape of
U+FFFD in its place, so `GetFeeds` returns a feed with the title `EF BF BD`,
which is not the feed that was added. -/
theorem GetFeeds_replaces_bad_title :
    bucketOf [] (channelBucket exNews.Name) = [] ∧
    (∀ f ∈ [exBadTitle], 0 < f.Id ∧ f.Id < 2 ^ 63) ∧
    ([exBadTitle].Pairwise fun a b => a.Id ≠ b.Id) ∧
    (exNews.GetFeeds refLib (addFeeds refLib exNews [] [exBadTitle]) 0 100).2 =
      ([{ exBadTitle with Title := [239, 191, 189] }], none) ∧
    ¬ (exNews.GetFeeds refLib (addFeeds refLib exNews [] [exBadTitle]) 0 100).2.1.Perm
      [exBadTitle] := by
  have hget : (exNews.GetFeeds refLib (addFeeds refLib exNews [] [exBadTitle]) 0 100).2 =
      ([{ exBadTitle with Title := [239, 191, 189] }], none) := by
    rfl
  refine ⟨rfl, by decide, by decide, hget, ?_⟩
  rw [hget]
  intro h
  have h1 := List.singleton_perm_singleton.1 h
  exact absurd h1 (by decide)

end RssServer
